import Mathlib

set_option maxRecDepth 100000

/-!
Verification development for the ICC profile organizer.

The Python source (`organize_profiles.py`) is embedded shallowly:

* byte strings (`bytes`) become `List Nat` (each element a byte value);
* text strings become `List Char` (ASCII semantics, which is the scope the
  program documents for itself);
* `Optional[...]` results become `Option`;
* Python's clamping slice semantics `data[:i]` / `data[i:]` become
  `List.take` / `List.drop`, which clamp in exactly the same way.

Definitions keep the source's names (snake_case Python names are kept where
Lean allows, otherwise camelCased).
-/

namespace ICC

/-- Big-endian 32-bit value of four bytes, as produced by `struct.unpack('>I', ...)`. -/
def u32be (b0 b1 b2 b3 : Nat) : Nat :=
  ((b0 * 256 + b1) * 256 + b2) * 256 + b3

/-- Read a big-endian u32 at byte offset `i` (callers guard that 4 bytes exist). -/
def readU32 (data : List Nat) (i : Nat) : Nat :=
  match (data.drop i).take 4 with
  | [a, b, c, d] => u32be a b c d
  | _ => 0

/-- The four bytes produced by `struct.pack('>I', n)` for `n < 2^32`. -/
def u32beBytes (n : Nat) : List Nat :=
  [n / 2 ^ 24 % 256, n / 2 ^ 16 % 256, n / 2 ^ 8 % 256, n % 256]

/-- `b'desc'` — the description tag signature. -/
def DESC_TAG : List Nat := [100, 101, 115, 99]

/-- Loop body of `ICCProfileUpdater.find_tag`: scan `count` remaining 12-byte tag
table entries starting at entry index `i`; a truncated entry breaks the scan. -/
def findTagLoop (data : List Nat) (tagSig : List Nat) : Nat → Nat → Option (Nat × Nat)
  | 0, _ => none
  | count + 1, i =>
    let entryOffset := 132 + i * 12
    if data.length < entryOffset + 12 then
      none
    else
      let entrySig := (data.drop entryOffset).take 4
      if entrySig = tagSig then
        some (readU32 data (entryOffset + 4), readU32 data (entryOffset + 8))
      else
        findTagLoop data tagSig count (i + 1)

/-- `ICCProfileUpdater.find_tag`: parse the tag table at offset 128 and return
`(offset, size)` of the first entry whose signature matches, else `none`. -/
def find_tag (data : List Nat) (tagSig : List Nat) : Option (Nat × Nat) :=
  if data.length < 132 then
    none
  else
    findTagLoop data tagSig (readU32 data 128) 0

/-- `new_description.encode('ascii', errors='replace')`: each character becomes
one byte; characters outside ASCII are replaced by `'?'` (byte 63). -/
def encodeAsciiReplace (s : List Char) : List Nat :=
  s.map fun c => if c.toNat < 128 then c.toNat else 63

/-- ICC alignment padding: pad a block of `n` bytes to a multiple of 4. -/
def pad4 (n : Nat) : Nat := (4 - n % 4) % 4

/-- The rebuilt `desc` tag block before alignment: signature, 4 reserved zero
bytes, big-endian length (text plus terminator), the ASCII text, terminator. -/
def descBase (descAscii : List Nat) : List Nat :=
  DESC_TAG ++ [0, 0, 0, 0] ++ u32beBytes (descAscii.length + 1) ++ descAscii ++ [0]

/-- The rebuilt `desc` tag block with ICC 4-byte alignment padding. -/
def mkDescData (descAscii : List Nat) : List Nat :=
  descBase descAscii ++ List.replicate (pad4 (descBase descAscii).length) 0

/-- `ICCProfileUpdater.update_description_tag`, translated line by line.
Python's clamping slices `data[:o]`/`data[o+s:]` are `take`/`drop`. -/
def update_description_tag (data : List Nat) (newDescription : List Char) :
    Option (List Nat) :=
  match find_tag data DESC_TAG with
  | none => none
  | some (oldOffset, oldSize) =>
    let descAscii := (encodeAsciiReplace newDescription).take 255
    let descData := mkDescData descAscii
    let newSize := descData.length
    if newSize ≤ oldSize then
      let padded := descData ++ List.replicate (oldSize - newSize) 0
      some (data.take oldOffset ++ padded ++ data.drop (oldOffset + oldSize))
    else
      -- truncate to fit: `max_desc_len = old_size - 12` must be positive
      if oldSize ≤ 12 then
        none
      else
        let descAscii2 := (encodeAsciiReplace newDescription).take (oldSize - 12 - 1)
        let descData2 := descBase descAscii2
        let padded2 := descData2 ++ List.replicate (oldSize - descData2.length) 0
        some (data.take oldOffset ++ padded2 ++ data.drop (oldOffset + oldSize))

/-- A 144-byte image: an all-zero 128-byte header, tag count 1, and a single tag
table entry whose signature is `desc` but whose recorded span (`offset 200`,
`size 16`) lies beyond the end of the data. -/
def corruptSpanData : List Nat :=
  List.replicate 128 0 ++ [0, 0, 0, 1] ++ DESC_TAG ++ u32beBytes 200 ++ u32beBytes 16

/-- A 164-byte profile image whose single `desc` tag entry records the
in-bounds span `(offset 144, size 20)`. -/
def inBoundsData : List Nat :=
  List.replicate 128 0 ++ [0, 0, 0, 1] ++ DESC_TAG ++ u32beBytes 144 ++ u32beBytes 20
    ++ List.replicate 20 0

/-- A 160-byte profile image whose single `desc` tag entry records the
in-bounds span `(offset 144, size 16)`. -/
def smallSpanData : List Nat :=
  List.replicate 128 0 ++ [0, 0, 0, 1] ++ DESC_TAG ++ u32beBytes 144 ++ u32beBytes 16
    ++ List.replicate 16 0

/-- A 144-byte profile image whose single `desc` tag entry records a span of
size 268 (at offset 0), large enough to hold any rebuilt description block. -/
def hugeSpanData : List Nat :=
  List.replicate 128 0 ++ [0, 0, 0, 1] ++ DESC_TAG ++ u32beBytes 0 ++ u32beBytes 268

end ICC

/-! ### Shared text primitives (ASCII semantics of the Python string ops) -/

namespace Txt

/-- ASCII uppercase test, the regex class `[A-Z]`. -/
def isUp (c : Char) : Bool := 'A' ≤ c && c ≤ 'Z'

/-- ASCII lowercase test, the regex class `[a-z]`. -/
def isLo (c : Char) : Bool := 'a' ≤ c && c ≤ 'z'

/-- ASCII digit test, the regex class `\d` on ASCII text. -/
def isDig (c : Char) : Bool := '0' ≤ c && c ≤ '9'

/-- The regex class `[a-zA-Z]`. -/
def isLet (c : Char) : Bool := isUp c || isLo c

/-- ASCII whitespace, the regex class `\s` / `str.split()` separators. -/
def isWs (c : Char) : Bool :=
  c = ' ' || c = '\t' || c = '\n' || c = '\r' || c = '\x0b' || c = '\x0c'

/-- `str.upper()` on one ASCII character. -/
def upChar (c : Char) : Char := if isLo c then Char.ofNat (c.toNat - 32) else c

/-- `str.lower()` on one ASCII character. -/
def lowChar (c : Char) : Char := if isUp c then Char.ofNat (c.toNat + 32) else c

/-- `str.lower()`. -/
def lowerL (s : List Char) : List Char := s.map lowChar

/-- `str.upper()`. -/
def upperL (s : List Char) : List Char := s.map upChar

/-- `str.startswith`. -/
def startsWithL : List Char → List Char → Bool
  | [], _ => true
  | _ :: _, [] => false
  | p :: ps, c :: cs => decide (p = c) && startsWithL ps cs

/-- Python's substring test `needle in hay`. -/
def containsL (hay needle : List Char) : Bool :=
  if startsWithL needle hay then true
  else
    match hay with
    | [] => false
    | _ :: rest => containsL rest needle

/-- Python dict lookup on an insertion-ordered association list. -/
def lookupA {α : Type} : List (List Char × α) → List Char → Option α
  | [], _ => none
  | (k, v) :: rest, key => if k = key then some v else lookupA rest key

/-- Python dict assignment `d[k] = v`: replace in place, else append. -/
def upsert : List (List Char × List Char) → List Char → List Char →
    List (List Char × List Char)
  | [], k, v => [(k, v)]
  | (k0, v0) :: rest, k, v =>
    if k0 = k then (k0, v) :: rest else (k0, v0) :: upsert rest k v

/-- Python string `<`: lexicographic by code point. -/
def strLt : List Char → List Char → Bool
  | [], [] => false
  | [], _ :: _ => true
  | _ :: _, [] => false
  | a :: as, b :: bs => if a < b then true else if b < a then false else strLt as bs

/-- Stable insertion: place `x` before the first element `y` with `le x y`. -/
def insertSorted (le : α → α → Bool) (x : α) : List α → List α
  | [] => [x]
  | y :: ys => if le x y then x :: y :: ys else y :: insertSorted le x ys

/-- Stable insertion sort.  A stable sort is determined uniquely by its
comparison preorder, so this models Python's stable `sorted`. -/
def insSort (le : α → α → Bool) : List α → List α
  | [] => []
  | x :: xs => insertSorted le x (insSort le xs)

/-- `sorted` on Python strings (ascending, stable). -/
def sortStrings (xs : List (List Char)) : List (List Char) :=
  insSort (fun a b => !strLt b a) xs

/-- `sep.join(xs)`. -/
def joinWith (sep : List Char) (xs : List (List Char)) : List Char :=
  List.intercalate sep xs

end Txt

/-! ### Conflict resolution (`ProfileOrganizer` caches and interactive prompt) -/

namespace Organizer

/-- The organizer's mutable cache state: the per-exact-filename choice cache
(`.profile_choices.json` / `self.user_choices`) and the global preference
cache (`.profile_preferences.json` / `self.global_preferences`). -/
structure OrgState where
  userChoices : List (List Char × List Char)
  globalPreferences : List (List Char × List Char)
deriving DecidableEq

/-- One dict update of `candidates_dict` in `_find_printer_candidates`:
`if full_name not in d or len(key) > len(d[full_name][0]): d[full_name] = (key, full_name)`.
Insertion order of the dict is kept (append on new key, in-place on update). -/
def bumpCand (acc : List (List Char × (List Char × List Char)))
    (key full : List Char) : List (List Char × (List Char × List Char)) :=
  match acc with
  | [] => [(full, (key, full))]
  | (f, kv) :: rest =>
    if f = full then
      if kv.1.length < key.length then (f, (key, full)) :: rest else (f, kv) :: rest
    else (f, kv) :: bumpCand rest key full

/-- `ProfileOrganizer._find_printer_candidates`: all printer aliases found
case-insensitively in the filename, deduplicated per canonical printer name
keeping the longest matching key; returns `(key, full_name)` pairs in dict
insertion order. -/
def findPrinterCandidates (printers : List (List Char × List Char))
    (filename : List Char) : List (List Char × List Char) :=
  let nameLower := Txt.lowerL filename
  (printers.foldl
      (fun acc kv =>
        if Txt.containsL nameLower (Txt.lowerL kv.1) then bumpCand acc kv.1 kv.2
        else acc)
      []).map Prod.snd

/-- `ProfileOrganizer._get_preference_key`: the candidates' keys, sorted and
hyphen-joined. -/
def get_preference_key (candidates : List (List Char × List Char)) : List Char :=
  Txt.joinWith ['-'] (Txt.sortStrings (candidates.map Prod.fst))

/-- `ProfileOrganizer._check_global_preference`. -/
def check_global_preference (st : OrgState)
    (candidates : List (List Char × List Char)) : Option (List Char) :=
  Txt.lookupA st.globalPreferences (get_preference_key candidates)

/-- One parsed line of `input()` inside `_prompt_for_printer`'s retry loop:
quit (`'q'`) or a (0-based) numeric selection. -/
inductive PromptAnswer where
  | quit
  | pick (idx : Nat)
deriving DecidableEq

/-- `ProfileOrganizer._prompt_for_printer`: on a valid selection, cache the
per-file choice, save the global preference rule, and return the chosen
printer; on `'q'` return nothing.  Out-of-range selections retry with the next
answer (the source blocks for more input; an exhausted answer list models
"no further input arrives"). -/
def prompt_for_printer (st : OrgState) (filename : List Char)
    (candidates : List (List Char × List Char)) :
    List PromptAnswer → Option (List Char) × OrgState
  | [] => (none, st)
  | .quit :: _ => (none, st)
  | .pick i :: rest =>
    match candidates[i]? with
    | some kv =>
      let chosen := kv.2
      let st1 : OrgState :=
        { st with userChoices := Txt.upsert st.userChoices filename chosen }
      let st2 : OrgState :=
        { st1 with
          globalPreferences :=
            Txt.upsert st1.globalPreferences (get_preference_key candidates) chosen }
      (some chosen, st2)
    | none => prompt_for_printer st filename candidates rest

/-- `ProfileOrganizer._get_printer_name_interactive`, instrumented with a third
component that records whether the interactive prompt was invoked. -/
def get_printer_name_interactive (printers : List (List Char × List Char))
    (interactive : Bool) (st : OrgState) (answers : List PromptAnswer)
    (filename detectedPrinter : List Char) : List Char × OrgState × Bool :=
  match Txt.lookupA st.userChoices filename with
  | some c => (c, st, false)
  | none =>
    let candidates := findPrinterCandidates printers filename
    if 1 < candidates.length then
      match check_global_preference st candidates with
      | some g => (g, st, false)
      | none =>
        if interactive then
          match prompt_for_printer st filename candidates answers with
          | (some chosen, st') =>
            (if chosen.isEmpty then detectedPrinter else chosen, st', true)
          | (none, st') => (detectedPrinter, st', true)
        else (detectedPrinter, st, false)
    else (detectedPrinter, st, false)

/-- The candidate lookup key as the spec's words describe it, for the C9
refinement comparison: *all* device alias keys occurring case-insensitively as
substrings of the filename, sorted and hyphen-joined (no per-device
deduplication). -/
def specCandidateKey (printers : List (List Char × List Char))
    (filename : List Char) : List Char :=
  Txt.joinWith ['-']
    (Txt.sortStrings ((printers.map Prod.fst).filter
      fun k => Txt.containsL (Txt.lowerL filename) (Txt.lowerL k)))

/-- A two-printer alias table where each alias key is also a substring of
filenames that mention the printer. -/
def demoPrinters : List (List Char × List Char) :=
  [("P7570".data, "Epson P7570".data), ("P9570".data, "Epson P9570".data)]

/-- An alias table in which two distinct keys of the same canonical printer
can both occur in one filename (`pro100` is a substring of `pixmapro100`). -/
def dedupePrinters : List (List Char × List Char) :=
  [("pixmapro100".data, "Canon Pixma PRO-100".data),
   ("pro100".data, "Canon Pixma PRO-100".data),
   ("P900".data, "Epson P900".data)]

end Organizer

/-! ### Paper-type formatting (`ProfileOrganizer._format_paper_type`) -/

namespace Fmt

/-- `str.replace(old, new)` for a single-character pattern. -/
def replaceCh (old new : Char) (s : List Char) : List Char :=
  s.map fun c => if c = old then new else c

/-- `re.sub(r'([A-Z][a-z]+)', r' \1', s)`: insert a space before every
non-overlapping match of an uppercase letter followed by a maximal nonempty
run of lowercase letters, scanning left to right. -/
def camelSub : List Char → List Char
  | [] => []
  | c :: rest =>
    if Txt.isUp c && (match rest with | d :: _ => Txt.isLo d | [] => false) then
      ' ' :: c :: (rest.takeWhile Txt.isLo ++ camelSub (rest.dropWhile Txt.isLo))
    else c :: camelSub rest
termination_by s => s.length
decreasing_by
  · simp only [List.length_cons]
    have h : (rest.dropWhile Txt.isLo).length ≤ rest.length :=
      (List.dropWhile_sublist Txt.isLo).length_le
    omega
  · simp

/-- `re.sub(r'([a-zA-Z])(\d)', r'\1 \2', s)`: insert a space between a letter
and an immediately following digit; the match consumes both characters. -/
def digitSub : List Char → List Char
  | [] => []
  | [c] => [c]
  | a :: b :: rest =>
    if Txt.isLet a && Txt.isDig b then a :: ' ' :: b :: digitSub rest
    else a :: digitSub (b :: rest)
termination_by s => s.length

/-- `re.sub(r'\s+', ' ', s)`: replace each maximal whitespace run by one space. -/
def collapseWS : List Char → List Char
  | [] => []
  | c :: rest =>
    if Txt.isWs c then ' ' :: collapseWS (rest.dropWhile Txt.isWs)
    else c :: collapseWS rest
termination_by s => s.length
decreasing_by
  · simp only [List.length_cons]
    have h : (rest.dropWhile Txt.isWs).length ≤ rest.length :=
      (List.dropWhile_sublist Txt.isWs).length_le
    omega
  · simp

/-- `str.strip()`: drop leading and trailing whitespace. -/
def stripWS (s : List Char) : List Char :=
  (s.dropWhile Txt.isWs).rdropWhile Txt.isWs

/-- `str.split()` (no separator): the maximal whitespace-free runs. -/
def wordsL : List Char → List (List Char)
  | [] => []
  | c :: rest =>
    if Txt.isWs c then wordsL rest
    else
      (c :: rest.takeWhile (fun d => !Txt.isWs d)) ::
        wordsL (rest.dropWhile (fun d => !Txt.isWs d))
termination_by s => s.length
decreasing_by
  · simp
  · simp only [List.length_cons]
    have h : (rest.dropWhile (fun d => !Txt.isWs d)).length ≤ rest.length :=
      (List.dropWhile_sublist (fun d => !Txt.isWs d)).length_le
    omega

/-- Title-case one word: `word[0].upper() + word[1:]`. -/
def titleW : List Char → List Char
  | [] => []
  | c :: rest => Txt.upChar c :: rest

/-- `re.sub(re.escape(tok), '', s, flags=re.IGNORECASE)`: delete the
non-overlapping case-insensitive occurrences of `tok`, scanning left to
right. -/
def removeTok (tok : List Char) : List Char → List Char
  | [] => []
  | c :: rest =>
    if tok ≠ [] ∧ Txt.lowerL (List.take tok.length (c :: rest)) = Txt.lowerL tok then
      removeTok tok (List.drop tok.length (c :: rest))
    else c :: removeTok tok rest
termination_by s => s.length
decreasing_by
  · rename_i h
    simp only [List.length_drop, List.length_cons]
    have : 0 < tok.length := List.length_pos.mpr h.1
    omega
  · simp

/-- `ProfileOrganizer._format_paper_type(paper_type, remove_brand)`. -/
def format_paper_type (paperType : List Char) (removeBrand : Option (List Char)) :
    List Char :=
  let cleaned := paperType
  -- `if remove_brand:` — skipped for `None` and for the empty string
  let cleaned :=
    match removeBrand with
    | some tok => if tok.isEmpty then cleaned else removeTok tok cleaned
    | none => cleaned
  let cleaned := replaceCh '+' ' ' (replaceCh '_' ' ' cleaned)
  let cleaned := camelSub cleaned
  let cleaned := digitSub cleaned
  let cleaned := stripWS (collapseWS cleaned)
  if cleaned.isEmpty then cleaned
  else Txt.joinWith [' '] ((wordsL cleaned).map titleW)

/-- No adjacent uppercase-lowercase pair anywhere (no camel-case split point). -/
def noUL : List Char → Bool
  | u :: l :: rest => (!(Txt.isUp u && Txt.isLo l)) && noUL (l :: rest)
  | _ => true

/-- Every camel-case split point that has a predecessor is preceded by a
space: the shape invariant of `camelSub` output. -/
def camelOK3 : List Char → Bool
  | x :: u :: l :: rest =>
    ((!(Txt.isUp u && Txt.isLo l)) || decide (x = ' ')) && camelOK3 (u :: l :: rest)
  | _ => true

/-- No adjacent letter-digit pair (no digit split point). -/
def noLD : List Char → Bool
  | a :: b :: rest => (!(Txt.isLet a && Txt.isDig b)) && noLD (b :: rest)
  | _ => true

end Fmt

/-! ### Pattern matching engine (`PatternMatcher`) -/

namespace Matcher

/-- A Python value stored in `FieldDefinition.position` (an index or a
positional keyword / range string). -/
inductive PyVal where
  | int (i : Int)
  | str (s : List Char)
deriving DecidableEq

/-- `FieldDefinition` dataclass. -/
structure FieldDefinition where
  field : List Char
  position : Option PyVal := none
  matchType : Option (List Char) := none
deriving DecidableEq

/-- `PatternVariant` dataclass (field names `prefix`, `prefix_length`). -/
structure PatternVariant where
  pfx : List Char
  pfxLength : Nat
deriving DecidableEq

/-- `PaperTypeProcessing` dataclass (field names `format`, `remove_brand`). -/
structure PaperTypeProcessing where
  format : Bool := false
  removeBrand : Option (List Char) := none
deriving DecidableEq

/-- `FilenamePattern` dataclass (`pfx*` model the Python fields `prefix` and
`prefix_case_insensitive`; `fieldStructure` models `structure`). -/
structure FilenamePattern where
  name : List Char
  priority : Int
  pfx : Option (List Char)
  pfxCaseInsensitive : Bool
  delimiter : List Char
  fieldStructure : List FieldDefinition
  brandValue : Option (List Char)
  ptp : PaperTypeProcessing
  variants : List PatternVariant := []
deriving DecidableEq

/-- First non-`none` result of `f` over a list — the shape of every
`for ...: return ...` loop in the matcher. -/
def firstSome {α β : Type} (f : α → Option β) : List α → Option β
  | [] => none
  | x :: xs =>
    match f x with
    | some r => some r
    | none => firstSome f xs

/-- `int(s)` on a plain optionally-signed decimal literal (the only shape the
range positions like `"1+"` use); anything else raises `ValueError`, modelled
as `none`. -/
def pyIntOfStr (s : List Char) : Option Int :=
  let digitsVal : List Char → Int := fun ds =>
    Int.ofNat (ds.foldl (fun n c => n * 10 + (c.toNat - 48)) 0)
  match s with
  | '-' :: ds => if ds ≠ [] ∧ ds.all Txt.isDig then some (-(digitsVal ds)) else none
  | '+' :: ds => if ds ≠ [] ∧ ds.all Txt.isDig then some (digitsVal ds) else none
  | ds => if ds ≠ [] ∧ ds.all Txt.isDig then some (digitsVal ds) else none

/-- Python list slice `l[i:]`, including the negative-index case. -/
def pySliceFrom {α : Type} (l : List α) (i : Int) : List α :=
  if i < 0 then l.drop (l.length - (-i).toNat) else l.drop i.toNat

/-- `str.split(sep)` for a nonempty separator: cut at each non-overlapping
occurrence, keeping empty pieces. -/
def splitOnAux (sep : List Char) : List Char → List (List Char)
  | [] => [[]]
  | c :: rest =>
    if sep ≠ [] ∧ Txt.startsWithL sep (c :: rest) then
      [] :: splitOnAux sep ((c :: rest).drop sep.length)
    else
      match splitOnAux sep rest with
      | w :: ws => (c :: w) :: ws
      | [] => [[c]]
termination_by s => s.length
decreasing_by
  · rename_i h
    simp only [List.length_drop, List.length_cons]
    have : 0 < sep.length := List.length_pos.mpr h.1
    omega
  · simp

/-- `remaining.split(pattern.delimiter)`.  (Python raises on an empty
separator; the catalog's delimiters are nonempty, and we return the undivided
string in that unreachable case.) -/
def split (sep : List Char) (s : List Char) : List (List Char) :=
  if sep = [] then [s] else splitOnAux sep s

/-- The `'key_search'` strategy: scan printer keys (key-major, part-minor); the
first key that equals a part (case-insensitively or exactly) or occurs inside
a part resolves to its canonical name. -/
def keySearch (printers : List (List Char × List Char))
    (parts : List (List Char)) : Option (List Char) :=
  firstSome
    (fun kv =>
      if parts.any (fun part =>
          decide (Txt.lowerL part = Txt.lowerL kv.1) || decide (part = kv.1)
            || Txt.containsL (Txt.lowerL part) (Txt.lowerL kv.1)) then
        some kv.2
      else none)
    printers

/-- The `'substring'` strategy: case-insensitive substring search of every
printer key against the whole filename; the longest key wins, the first
winning length ties. -/
def substringSearch (printers : List (List Char × List Char))
    (filename : List Char) : Option (List Char) :=
  let filenameLower := Txt.lowerL filename
  (printers.foldl
      (fun best kv =>
        if Txt.containsL filenameLower (Txt.lowerL kv.1) then
          match best with
          | none => some kv
          | some b => if b.1.length < kv.1.length then some kv else some b
        else best)
      none).map Prod.snd

/-- Resolution of a fixed-position `printer` part: exact dict hit, then
case-insensitive equality or either-direction substring against each key in
table order, then the raw part unchanged. -/
def resolvePrinterPart (printers : List (List Char × List Char))
    (part : List Char) : List Char :=
  match Txt.lookupA printers part with
  | some v => v
  | none =>
    match firstSome
        (fun kv =>
          if decide (Txt.lowerL part = Txt.lowerL kv.1)
              || Txt.containsL (Txt.lowerL part) (Txt.lowerL kv.1)
              || Txt.containsL (Txt.lowerL kv.1) (Txt.lowerL part) then
            some kv.2
          else none)
        printers with
    | some v => v
    | none => part

/-- Does some printer key match this part (equality after lowering, or key
inside part)?  Shared by `before_printer` / `after_printer`. -/
def partKeyMatch (printers : List (List Char × List Char)) (part : List Char) : Bool :=
  printers.any fun kv =>
    decide (Txt.lowerL part = Txt.lowerL kv.1)
      || Txt.containsL (Txt.lowerL part) (Txt.lowerL kv.1)

/-- `position == "before_printer"`: everything before the first part that
matches a printer key. -/
def beforePrinterGo (printers : List (List Char × List Char)) (delim : List Char)
    (parts : List (List Char)) : Nat → List (List Char) → Option (List Char)
  | _, [] => none
  | i, p :: rest =>
    if partKeyMatch printers p then some (Txt.joinWith delim (parts.take i))
    else beforePrinterGo printers delim parts (i + 1) rest

/-- `position == "before_printer"`. -/
def beforePrinter (printers : List (List Char × List Char)) (delim : List Char)
    (parts : List (List Char)) : Option (List Char) :=
  beforePrinterGo printers delim parts 0 parts

/-- `position == "after_printer"`: everything after the first matching part
that is not the last part (a match at the last part falls through and the
scan continues, which can only run off the end). -/
def afterPrinterGo (printers : List (List Char × List Char)) (delim : List Char)
    (parts : List (List Char)) : Nat → List (List Char) → Option (List Char)
  | _, [] => none
  | i, p :: rest =>
    if partKeyMatch printers p ∧ i + 1 < parts.length then
      some (Txt.joinWith delim (parts.drop (i + 1)))
    else afterPrinterGo printers delim parts (i + 1) rest

/-- `position == "after_printer"`. -/
def afterPrinter (printers : List (List Char × List Char)) (delim : List Char)
    (parts : List (List Char)) : Option (List Char) :=
  afterPrinterGo printers delim parts 0 parts

/-- `str.replace(needle, '')`: delete all non-overlapping occurrences
(case-sensitive; the caller lowers both sides first). -/
def removeAllSub (needle : List Char) : List Char → List Char
  | [] => []
  | c :: rest =>
    if needle ≠ [] ∧ Txt.startsWithL needle (c :: rest) then
      removeAllSub needle (List.drop needle.length (c :: rest))
    else c :: removeAllSub needle rest
termination_by s => s.length
decreasing_by
  · rename_i h
    simp only [List.length_drop, List.length_cons]
    have : 0 < needle.length := List.length_pos.mpr h.1
    omega
  · simp

/-- `position == "remaining"`: remove the longest printer key found in the
lowered filename from the lowered filename and strip; `none` when no key
occurs. -/
def remainingField (printers : List (List Char × List Char))
    (filename : List Char) : Option (List Char) :=
  let filenameLower := Txt.lowerL filename
  let best := printers.foldl
    (fun best kv =>
      if Txt.containsL filenameLower (Txt.lowerL kv.1) then
        match best with
        | none => some kv.1
        | some b => if b.length < kv.1.length then some kv.1 else some b
      else best)
    none
  match best with
  | some bk => some (Fmt.stripWS (removeAllSub (Txt.lowerL bk) filenameLower))
  | none => none

/-- `PatternMatcher._extract_field`, dispatching in the source's order:
`match_type` checks first, then the position forms. -/
def extractField (printers : List (List Char × List Char)) (pat : FilenamePattern)
    (parts : List (List Char)) (filename : List Char) (fd : FieldDefinition) :
    Option (List Char) :=
  if fd.matchType = some "key_search".data then
    keySearch printers parts
  else if fd.matchType = some "substring".data then
    substringSearch printers filename
  else
    match fd.position with
    | some (.int i) =>
      if 0 ≤ i ∧ i < (parts.length : Int) then
        let part := parts.getD i.toNat []
        if fd.field = "printer".data then some (resolvePrinterPart printers part)
        else some part
      else none
    | some (.str s) =>
      if s = "before_printer".data then beforePrinter printers pat.delimiter parts
      else if s = "after_printer".data then afterPrinter printers pat.delimiter parts
      else if s.getLast? = some '+' then
        match pyIntOfStr s.dropLast with
        | some start =>
          if start < (parts.length : Int) then
            some (Txt.joinWith pat.delimiter (pySliceFrom parts start))
          else none
        | none => none
      else if s = "remaining".data then remainingField printers filename
      else none
    | none => none

/-- The `extracted` dict built field by field (`extracted[field] = value`);
prepending and looking up the first hit models last-write-wins. -/
def extractAll (printers : List (List Char × List Char)) (pat : FilenamePattern)
    (parts : List (List Char)) (filename : List Char) :
    List (List Char × List Char) :=
  pat.fieldStructure.foldl
    (fun acc fd =>
      match extractField printers pat parts filename fd with
      | some v => (fd.field, v) :: acc
      | none => acc)
    []

/-- `PatternMatcher._normalize_brand`: exact-key lookup in the brand mapping. -/
def normalize_brand (brandMap : List (List Char × List Char))
    (brand : List Char) : List Char :=
  match Txt.lookupA brandMap brand with
  | some v => v
  | none => brand

/-- Prefix handling at the top of `PatternMatcher._try_pattern`: the matched
remainder of the filename, or `none` when the pattern's prefix (or none of its
variant prefixes) matches.  Variants strip their declared `prefix_length`;
variant matching lowers both sides, the single-prefix case uppers them. -/
def computeRemaining (pat : FilenamePattern) (filename : List Char) :
    Option (List Char) :=
  match pat.pfx with
  | none => some filename
  | some pfx =>
    if pat.variants ≠ [] then
      firstSome
        (fun var =>
          if (if pat.pfxCaseInsensitive then
                Txt.startsWithL (Txt.lowerL var.pfx) (Txt.lowerL filename)
              else Txt.startsWithL var.pfx filename) then
            some (filename.drop var.pfxLength)
          else none)
        pat.variants
    else
      if pat.pfxCaseInsensitive then
        if Txt.startsWithL (Txt.upperL pfx) (Txt.upperL filename) then
          some (filename.drop pfx.length)
        else none
      else
        if Txt.startsWithL pfx filename then some (filename.drop pfx.length)
        else none

/-- `PatternMatcher._try_pattern`. -/
def try_pattern (printers brandMap : List (List Char × List Char))
    (pat : FilenamePattern) (filename : List Char) :
    Option (List Char × List Char × List Char) :=
  match computeRemaining pat filename with
  | none => none
  | some remaining =>
    let parts := split pat.delimiter remaining
    let extracted := extractAll printers pat parts filename
    match Txt.lookupA extracted "printer".data with
    | none => none
    | some printerName =>
      let brand :=
        match pat.brandValue with
        | some bv => bv
        | none => (Txt.lookupA extracted "brand".data).getD "Unknown".data
      let brand := normalize_brand brandMap brand
      let paperType := (Txt.lookupA extracted "paper_type".data).getD "Unknown".data
      let paperType :=
        if pat.ptp.format then Fmt.format_paper_type paperType pat.ptp.removeBrand
        else paperType
      some (printerName, brand, paperType)

/-- `PurePath.stem`: the name with its final suffix removed (`rfind('.')`-based,
as in CPython's pathlib). -/
def stemL (name : List Char) : List Char :=
  match name.reverse.findIdx? (· = '.') with
  | some j =>
    let i := name.length - 1 - j
    if 0 < i ∧ i < name.length - 1 then name.take i else name
  | none => name

/-- `sorted(patterns)` under `FilenamePattern.__lt__` (priority descending):
a stable sort is determined by its comparison preorder, so stable insertion
sort models Python's stable `sorted`. -/
def sortPatterns (patterns : List FilenamePattern) : List FilenamePattern :=
  Txt.insSort (fun p q => decide (q.priority ≤ p.priority)) patterns

/-- `PatternMatcher.match`: strip the extension, replace `+` with space, and
return the first pattern result in priority order. -/
def match_filename (printers brandMap : List (List Char × List Char))
    (patterns : List FilenamePattern) (filename : List Char) :
    Option (List Char × List Char × List Char) :=
  let nameWithoutExt := Fmt.replaceCh '+' ' ' (stemL filename)
  firstSome (fun pat => try_pattern printers brandMap pat nameWithoutExt)
    (sortPatterns patterns)

/-- A one-printer alias table for the priority-determinism witness. -/
def onePrinter : List (List Char × List Char) :=
  [("P900".data, "Epson P900".data)]

/-- A brand mapping that renames the fixed brand value `Moab` to `MOAB`
(as the source's default table does). -/
def moabBrandMap : List (List Char × List Char) :=
  [("Moab".data, "MOAB".data)]

/-- A high-priority catch-all rule: printer at part 0, fixed brand `Brand A`. -/
def patHigh : FilenamePattern :=
  { name := "high".data, priority := 100, pfx := none, pfxCaseInsensitive := true,
    delimiter := " ".data,
    fieldStructure := [{ field := "printer".data, position := some (.int 0) }],
    brandValue := some "Brand A".data, ptp := {} }

/-- The same rule at priority 10 with fixed brand `Brand B`. -/
def patLow : FilenamePattern :=
  { name := "low".data, priority := 10, pfx := none, pfxCaseInsensitive := true,
    delimiter := " ".data,
    fieldStructure := [{ field := "printer".data, position := some (.int 0) }],
    brandValue := some "Brand B".data, ptp := {} }

/-- A rule with fixed brand value `Moab` and no brand field. -/
def patMoab : FilenamePattern :=
  { name := "moab".data, priority := 50, pfx := none, pfxCaseInsensitive := true,
    delimiter := " ".data,
    fieldStructure := [{ field := "printer".data, position := some (.int 0) }],
    brandValue := some "Moab".data, ptp := {} }

end Matcher

-- ════════════════════════════════════════════════════════════════════════════
-- Theorems
-- ════════════════════════════════════════════════════════════════════════════

namespace ICC

theorem descBase_length (a : List Nat) : (descBase a).length = 13 + a.length := by
  simp [descBase, u32beBytes, DESC_TAG]
  omega

theorem mkDescData_length (a : List Nat) :
    (mkDescData a).length = 13 + a.length + pad4 (13 + a.length) := by
  simp [mkDescData, descBase_length]

theorem mkDescData_length_le (a : List Nat) (h : a.length ≤ 255) :
    (mkDescData a).length ≤ 268 := by
  rw [mkDescData_length]
  unfold pad4
  omega

theorem sixteen_le_mkDescData_length (a : List Nat) : 16 ≤ (mkDescData a).length := by
  rw [mkDescData_length]
  unfold pad4
  omega

theorem encodeAsciiReplace_of_ascii (s : List Char) (h : ∀ c ∈ s, c.toNat < 128) :
    encodeAsciiReplace s = s.map Char.toNat := by
  unfold encodeAsciiReplace
  exact List.map_congr_left fun c hc => if_pos (h c hc)

end ICC

/-- **C2.** `update_description_tag` fails (returns `none`) exactly when the
`desc` tag is absent from the tag table (including a truncated or missing
table), or when the recorded tag span cannot hold the 12-byte header plus a
one-byte terminator (size < 13).  Being a pure function of the input bytes, it
produces no patched output in those cases and the input is untouched. -/
theorem ICC.update_none_iff (data : List Nat) (desc : List Char) :
    update_description_tag data desc = none ↔
      (find_tag data DESC_TAG = none ∨
        ∃ off size, find_tag data DESC_TAG = some (off, size) ∧ size < 13) := by
  cases h : find_tag data DESC_TAG with
  | none => simp [update_description_tag, h]
  | some v =>
    obtain ⟨off, size⟩ := v
    have h16 := sixteen_le_mkDescData_length ((encodeAsciiReplace desc).take 255)
    simp only [update_description_tag, h, Option.some.injEq, Prod.mk.injEq,
      reduceCtorEq, false_or]
    by_cases hle : (mkDescData ((encodeAsciiReplace desc).take 255)).length ≤ size
    · rw [if_pos hle]
      constructor
      · intro hc
        exact absurd hc (by simp)
      · rintro ⟨off', size', heq, hlt⟩
        obtain ⟨rfl, rfl⟩ := heq
        omega
    · rw [if_neg hle]
      by_cases h12 : size ≤ 12
      · rw [if_pos h12]
        exact ⟨fun _ => ⟨off, size, ⟨rfl, rfl⟩, by omega⟩, fun _ => rfl⟩
      · rw [if_neg h12]
        constructor
        · intro hc
          exact absurd hc (by simp)
        · rintro ⟨off', size', heq, hlt⟩
          obtain ⟨rfl, rfl⟩ := heq
          omega

/-- **C1 (amended).** When the located `desc` tag's recorded span lies entirely
within the data (`offset + size ≤ length`), every successful patch returns a
byte-string of exactly the input's length.  (Without that bound the claim as
stated fails: the clamping splice can grow the file — see the
counterexample.) -/
theorem ICC.update_preserves_length (data : List Nat) (desc : List Char)
    (off size : Nat) (h : find_tag data DESC_TAG = some (off, size))
    (hb : off + size ≤ data.length) (out : List Nat)
    (ho : update_description_tag data desc = some out) :
    out.length = data.length := by
  simp only [update_description_tag, h] at ho
  by_cases hle : (mkDescData ((encodeAsciiReplace desc).take 255)).length ≤ size
  · rw [if_pos hle] at ho
    obtain rfl := Option.some.inj ho
    simp only [List.length_append, List.length_take, List.length_replicate,
      List.length_drop]
    omega
  · rw [if_neg hle] at ho
    by_cases h12 : size ≤ 12
    · rw [if_pos h12] at ho
      exact absurd ho (by simp)
    · rw [if_neg h12] at ho
      obtain rfl := Option.some.inj ho
      have hbl : (descBase ((encodeAsciiReplace desc).take (size - 12 - 1))).length
          = 13 + ((encodeAsciiReplace desc).take (size - 12 - 1)).length :=
        descBase_length _
      have htk : ((encodeAsciiReplace desc).take (size - 12 - 1)).length
          ≤ size - 12 - 1 := by
        simp [List.length_take]
      simp only [List.length_append, List.length_take, List.length_replicate,
        List.length_drop]
      omega

/-- **C1 counterexample.** On a 144-byte input whose `desc` tag entry records a
span beyond the end of the file, the patch succeeds and returns 160 bytes —
longer than the input — refuting "for no input does the operation return a
byte-string longer than the input". -/
theorem ICC.update_grows_on_corrupt_span :
    (update_description_tag corruptSpanData ['A']).map List.length = some 160 ∧
      corruptSpanData.length = 144 := by
  constructor
  · rfl
  · rfl

/-- Witness for C1: a concrete in-bounds profile on which the amended theorem
applies and the patch preserves the 164-byte length. -/
theorem ICC.update_preserves_length_witness :
    find_tag inBoundsData DESC_TAG = some (144, 20) ∧ 144 + 20 ≤ inBoundsData.length ∧
      ((update_description_tag inBoundsData ['A']).getD []).length = inBoundsData.length :=
  ⟨rfl, by decide,
    update_preserves_length inBoundsData ['A'] 144 20 rfl (by decide) _ rfl⟩

/-- **C3 (amended).** For an ASCII description that does not fit the located
tag span, and a span that is in bounds (`offset + size ≤ length`) and at least
13 bytes, the patch deterministically truncates: the stored ASCII payload is
the encoding of a prefix of the requested text (`take (size - 13)`), followed
by the null terminator, the rewritten block exactly fills the old span, and the
output has the input's length.  (The original "never longer than the input"
clause fails for out-of-bounds spans — see the counterexample.) -/
theorem ICC.update_truncation (data : List Nat) (desc : List Char) (off size : Nat)
    (hascii : ∀ c ∈ desc, c.toNat < 128)
    (h : find_tag data DESC_TAG = some (off, size))
    (hfit : size < (mkDescData ((encodeAsciiReplace desc).take 255)).length)
    (h13 : 13 ≤ size) (hb : off + size ≤ data.length) :
    update_description_tag data desc =
      some (data.take off
        ++ (descBase ((desc.take (size - 13)).map Char.toNat)
            ++ List.replicate
                (size - (descBase ((desc.take (size - 13)).map Char.toNat)).length) 0)
        ++ data.drop (off + size)) ∧
    (descBase ((desc.take (size - 13)).map Char.toNat)
        ++ List.replicate
            (size - (descBase ((desc.take (size - 13)).map Char.toNat)).length) 0).length
      = size ∧
    (data.take off
        ++ (descBase ((desc.take (size - 13)).map Char.toNat)
            ++ List.replicate
                (size - (descBase ((desc.take (size - 13)).map Char.toNat)).length) 0)
        ++ data.drop (off + size)).length = data.length := by
  have henc : encodeAsciiReplace desc = desc.map Char.toNat :=
    encodeAsciiReplace_of_ascii desc hascii
  have htk : (encodeAsciiReplace desc).take (size - 12 - 1)
      = (desc.take (size - 13)).map Char.toNat := by
    rw [henc, ← List.map_take]
    congr 2
  have hlenX : ((desc.take (size - 13)).map Char.toNat).length ≤ size - 13 := by
    simp [List.length_take]
  have hdb := descBase_length ((desc.take (size - 13)).map Char.toNat)
  refine ⟨?_, ?_, ?_⟩
  · simp only [update_description_tag, h]
    rw [if_neg (not_le.2 hfit), if_neg (by omega : ¬ size ≤ 12), htk]
  · simp only [List.length_append, List.length_replicate]
    omega
  · simp only [List.length_append, List.length_take, List.length_replicate,
      List.length_drop]
    omega

/-- **C3 counterexample.** A 144-byte input whose `desc` tag entry records an
out-of-bounds span of size 16, patched with the ASCII description `"AAAAA"`
(too long for the span, so the truncation path runs), yields 160 bytes —
longer than the input — refuting "the output byte-string is never longer than
the input". -/
theorem ICC.truncation_grows_on_corrupt_span :
    (∀ c ∈ ['A', 'A', 'A', 'A', 'A'], c.toNat < 128) ∧
    find_tag corruptSpanData DESC_TAG = some (200, 16) ∧
    16 < (mkDescData ((encodeAsciiReplace ['A', 'A', 'A', 'A', 'A']).take 255)).length ∧
    (update_description_tag corruptSpanData ['A', 'A', 'A', 'A', 'A']).map List.length
      = some 160 ∧
    corruptSpanData.length = 144 := by
  refine ⟨by decide, rfl, by decide, rfl, rfl⟩

/-- Witness for C3: a concrete in-bounds 160-byte profile with a 16-byte span
and the too-long ASCII description `"AAAAA"`; the amended theorem applies and
shows the stored payload is the 3-character prefix `"AAA"`. -/
theorem ICC.update_truncation_witness :
    (∀ c ∈ ['A', 'A', 'A', 'A', 'A'], c.toNat < 128) ∧
    find_tag smallSpanData DESC_TAG = some (144, 16) ∧
    16 < (mkDescData ((encodeAsciiReplace ['A', 'A', 'A', 'A', 'A']).take 255)).length ∧
    13 ≤ 16 ∧ 144 + 16 ≤ smallSpanData.length ∧
    (update_description_tag smallSpanData ['A', 'A', 'A', 'A', 'A'] =
      some (smallSpanData.take 144
        ++ (descBase (((['A', 'A', 'A', 'A', 'A'] : List Char).take (16 - 13)).map Char.toNat)
            ++ List.replicate
                (16 - (descBase (((['A', 'A', 'A', 'A', 'A'] : List Char).take (16 - 13)).map
                  Char.toNat)).length) 0)
        ++ smallSpanData.drop (144 + 16)) ∧
      (descBase (((['A', 'A', 'A', 'A', 'A'] : List Char).take (16 - 13)).map Char.toNat)
        ++ List.replicate
            (16 - (descBase (((['A', 'A', 'A', 'A', 'A'] : List Char).take (16 - 13)).map
              Char.toNat)).length) 0).length = 16 ∧
      (smallSpanData.take 144
        ++ (descBase (((['A', 'A', 'A', 'A', 'A'] : List Char).take (16 - 13)).map Char.toNat)
            ++ List.replicate
                (16 - (descBase (((['A', 'A', 'A', 'A', 'A'] : List Char).take (16 - 13)).map
                  Char.toNat)).length) 0)
        ++ smallSpanData.drop (144 + 16)).length = smallSpanData.length) :=
  ⟨by decide, rfl, by decide, by decide, by decide,
    update_truncation smallSpanData ['A', 'A', 'A', 'A', 'A'] 144 16 (by decide) rfl
      (by decide) (by decide) (by decide)⟩

/-- **C10.** When the located `desc` tag span is at least 268 bytes (large
enough for any rebuilt block), the patch always succeeds on the in-place path
and stores exactly the first 255 characters of the requested description,
ASCII-encoded with every non-ASCII character replaced by `'?'` (byte 63) rather
than raising an error. -/
theorem ICC.update_caps_at_255 (data : List Nat) (desc : List Char) (off size : Nat)
    (h : find_tag data DESC_TAG = some (off, size)) (hs : 268 ≤ size) :
    update_description_tag data desc =
      some (data.take off
        ++ (mkDescData ((encodeAsciiReplace desc).take 255)
            ++ List.replicate
                (size - (mkDescData ((encodeAsciiReplace desc).take 255)).length) 0)
        ++ data.drop (off + size)) ∧
    (encodeAsciiReplace desc).take 255
      = (desc.take 255).map fun c => if c.toNat < 128 then c.toNat else 63 := by
  have hle : (mkDescData ((encodeAsciiReplace desc).take 255)).length ≤ size := by
    have := mkDescData_length_le ((encodeAsciiReplace desc).take 255)
      (by simp [List.length_take])
    omega
  constructor
  · simp only [update_description_tag, h]
    rw [if_pos hle]
  · unfold encodeAsciiReplace
    rw [← List.map_take]

/-- Witness for C10: a concrete profile with a 268-byte `desc` span, patched
with a 260-character description; the 255-character cap applies. -/
theorem ICC.update_caps_at_255_witness :
    find_tag hugeSpanData DESC_TAG = some (0, 268) ∧ 268 ≤ 268 ∧
      (update_description_tag hugeSpanData (List.replicate 260 'A') =
        some (hugeSpanData.take 0
          ++ (mkDescData ((encodeAsciiReplace (List.replicate 260 'A')).take 255)
              ++ List.replicate
                  (268 - (mkDescData ((encodeAsciiReplace
                    (List.replicate 260 'A')).take 255)).length) 0)
          ++ hugeSpanData.drop (0 + 268)) ∧
        (encodeAsciiReplace (List.replicate 260 'A')).take 255
          = ((List.replicate 260 'A').take 255).map
              fun c => if c.toNat < 128 then c.toNat else 63) :=
  ⟨rfl, le_refl 268,
    update_caps_at_255 hugeSpanData (List.replicate 260 'A') 0 268 rfl (le_refl 268)⟩


namespace Organizer

theorem Txt.lookupA_upsert (m : List (List Char × List Char)) (k v : List Char) :
    Txt.lookupA (Txt.upsert m k v) k = some v := by
  induction m with
  | nil => simp [Txt.upsert, Txt.lookupA]
  | cons hd tl ih =>
    obtain ⟨k0, v0⟩ := hd
    by_cases hk : k0 = k
    · simp [Txt.upsert, Txt.lookupA, hk]
    · simp [Txt.upsert, Txt.lookupA, hk, ih]

/-- The state after a first interactive resolution of `fn1` (selection `i`,
candidates' entry `(k, dx)`): both caches gain the choice `dx`. -/
theorem resolved_state_eq (printers : List (List Char × List Char)) (st0 : OrgState)
    (fn1 det1 : List Char) (i : Nat) (k dx : List Char)
    (h1 : Txt.lookupA st0.userChoices fn1 = none)
    (h2 : 1 < (findPrinterCandidates printers fn1).length)
    (h3 : check_global_preference st0 (findPrinterCandidates printers fn1) = none)
    (h4 : (findPrinterCandidates printers fn1)[i]? = some (k, dx)) :
    (get_printer_name_interactive printers true st0 [.pick i] fn1 det1).2.1 =
      ⟨Txt.upsert st0.userChoices fn1 dx,
       Txt.upsert st0.globalPreferences
         (get_preference_key (findPrinterCandidates printers fn1)) dx⟩ := by
  simp only [get_printer_name_interactive, h1, if_pos h2, h3, prompt_for_printer, h4,
    if_true]

end Organizer

namespace Organizer

/-- **C7.** After an ambiguous filename `fn1` (candidate list longer than one,
no per-file cache entry, no existing global preference) is interactively
resolved by selecting candidate `i` — which persists the choice under the
sorted hyphen-joined candidate key — every other filename `fn2` (no per-file
entry) whose detected candidate set yields the same preference key resolves to
the same device through the global preference cache, with unchanged state and
without invoking the interactive prompt (`false` flag). -/
theorem preference_learning (printers : List (List Char × List Char))
    (st0 : OrgState) (fn1 fn2 det1 det2 : List Char) (i : Nat) (k dx : List Char)
    (intMode2 : Bool) (answers2 : List PromptAnswer)
    (h1 : Txt.lookupA st0.userChoices fn1 = none)
    (h2 : 1 < (findPrinterCandidates printers fn1).length)
    (h3 : check_global_preference st0 (findPrinterCandidates printers fn1) = none)
    (h4 : (findPrinterCandidates printers fn1)[i]? = some (k, dx))
    (h5 : Txt.lookupA
        (get_printer_name_interactive printers true st0 [.pick i] fn1 det1).2.1.userChoices
        fn2 = none)
    (h6 : get_preference_key (findPrinterCandidates printers fn2)
        = get_preference_key (findPrinterCandidates printers fn1))
    (h7 : 1 < (findPrinterCandidates printers fn2).length) :
    get_printer_name_interactive printers intMode2
        (get_printer_name_interactive printers true st0 [.pick i] fn1 det1).2.1
        answers2 fn2 det2
      = (dx, (get_printer_name_interactive printers true st0 [.pick i] fn1 det1).2.1,
          false) := by
  have hst := resolved_state_eq printers st0 fn1 det1 i k dx h1 h2 h3 h4
  rw [hst] at h5 ⊢
  have hg : check_global_preference
      ⟨Txt.upsert st0.userChoices fn1 dx,
       Txt.upsert st0.globalPreferences
         (get_preference_key (findPrinterCandidates printers fn1)) dx⟩
      (findPrinterCandidates printers fn2) = some dx := by
    unfold check_global_preference
    rw [h6]
    exact Txt.lookupA_upsert _ _ _
  simp only [get_printer_name_interactive, h5, if_pos h7, hg]

/-- Witness for C7 at a concrete configuration: resolving
`"a p7570 p9570"` to `Epson P7570` makes the distinct filename
`"p9570 p7570 b"` (same candidate set in a different order) resolve to
`Epson P7570` without prompting. -/
theorem preference_learning_witness :
    Txt.lookupA (OrgState.mk [] []).userChoices "a p7570 p9570".data = none ∧
    1 < (findPrinterCandidates demoPrinters "a p7570 p9570".data).length ∧
    check_global_preference (OrgState.mk [] [])
      (findPrinterCandidates demoPrinters "a p7570 p9570".data) = none ∧
    (findPrinterCandidates demoPrinters "a p7570 p9570".data)[0]?
      = some ("P7570".data, "Epson P7570".data) ∧
    Txt.lookupA
      (get_printer_name_interactive demoPrinters true (OrgState.mk [] [])
        [.pick 0] "a p7570 p9570".data "X".data).2.1.userChoices
      "p9570 p7570 b".data = none ∧
    get_preference_key (findPrinterCandidates demoPrinters "p9570 p7570 b".data)
      = get_preference_key (findPrinterCandidates demoPrinters "a p7570 p9570".data) ∧
    1 < (findPrinterCandidates demoPrinters "p9570 p7570 b".data).length ∧
    get_printer_name_interactive demoPrinters false
        (get_printer_name_interactive demoPrinters true (OrgState.mk [] [])
          [.pick 0] "a p7570 p9570".data "X".data).2.1
        [] "p9570 p7570 b".data "Y".data
      = ("Epson P7570".data,
         (get_printer_name_interactive demoPrinters true (OrgState.mk [] [])
           [.pick 0] "a p7570 p9570".data "X".data).2.1,
         false) :=
  ⟨by decide, by decide, by decide, by decide, by decide, by decide, by decide,
    preference_learning demoPrinters (OrgState.mk [] []) "a p7570 p9570".data
      "p9570 p7570 b".data "X".data "Y".data 0 "P7570".data "Epson P7570".data
      false [] (by decide) (by decide) (by decide) (by decide) (by decide)
      (by decide) (by decide)⟩

/-- **C8 (amended).** When an ambiguous filename (no per-file cache entry,
more than one candidate) is resolved by a hit in the global preference cache,
the chosen device is returned but the organizer's state — including the
per-filename choice cache — is left completely unchanged; only the
interactive prompt writes the caches. -/
theorem global_hit_leaves_state (printers : List (List Char × List Char))
    (intMode : Bool) (st : OrgState) (answers : List PromptAnswer)
    (fn det g : List Char)
    (h1 : Txt.lookupA st.userChoices fn = none)
    (h2 : 1 < (findPrinterCandidates printers fn).length)
    (h3 : check_global_preference st (findPrinterCandidates printers fn) = some g) :
    get_printer_name_interactive printers intMode st answers fn det = (g, st, false) := by
  simp only [get_printer_name_interactive, h1, if_pos h2, h3]

/-- **C8 counterexample.** A concrete ambiguous filename resolved via the
global preference cache: the call returns the cached device yet the
per-filename choice cache is still empty afterwards — the claimed write into
the per-filename cache does not happen. -/
theorem global_hit_no_perfile_write :
    Txt.lookupA (OrgState.mk [] [("P7570-P9570".data, "Epson P7570".data)]).userChoices
      "a p7570 p9570".data = none ∧
    1 < (findPrinterCandidates demoPrinters "a p7570 p9570".data).length ∧
    check_global_preference (OrgState.mk [] [("P7570-P9570".data, "Epson P7570".data)])
      (findPrinterCandidates demoPrinters "a p7570 p9570".data)
      = some "Epson P7570".data ∧
    (get_printer_name_interactive demoPrinters true
        (OrgState.mk [] [("P7570-P9570".data, "Epson P7570".data)]) []
        "a p7570 p9570".data "X".data).1 = "Epson P7570".data ∧
    Txt.lookupA
      (get_printer_name_interactive demoPrinters true
        (OrgState.mk [] [("P7570-P9570".data, "Epson P7570".data)]) []
        "a p7570 p9570".data "X".data).2.1.userChoices
      "a p7570 p9570".data = none := by
  refine ⟨by decide, by decide, by decide, by decide, by decide⟩

/-- Witness for C8 at a concrete configuration. -/
theorem global_hit_leaves_state_witness :
    Txt.lookupA (OrgState.mk [] [("P7570-P9570".data, "Epson P7570".data)]).userChoices
      "a p7570 p9570".data = none ∧
    1 < (findPrinterCandidates demoPrinters "a p7570 p9570".data).length ∧
    check_global_preference (OrgState.mk [] [("P7570-P9570".data, "Epson P7570".data)])
      (findPrinterCandidates demoPrinters "a p7570 p9570".data)
      = some "Epson P7570".data ∧
    get_printer_name_interactive demoPrinters false
        (OrgState.mk [] [("P7570-P9570".data, "Epson P7570".data)]) []
        "a p7570 p9570".data "X".data
      = ("Epson P7570".data,
         OrgState.mk [] [("P7570-P9570".data, "Epson P7570".data)], false) :=
  ⟨by decide, by decide, by decide,
    global_hit_leaves_state demoPrinters false
      (OrgState.mk [] [("P7570-P9570".data, "Epson P7570".data)]) []
      "a p7570 p9570".data "X".data "Epson P7570".data
      (by decide) (by decide) (by decide)⟩

/-- **C9 counterexample.** With an alias table containing two keys of the same
canonical device, the filename `"pixmapro100 P900"` contains the alias keys
`pixmapro100`, `pro100`, and `P900` literally, so the claim's key would be
`"P900-pixmapro100-pro100"`; the code deduplicates per canonical device
(keeping the longest key) and produces `"P900-pixmapro100"`. -/
theorem candidate_key_not_all_occurrences :
    specCandidateKey dedupePrinters "pixmapro100 P900".data
      = "P900-pixmapro100-pro100".data ∧
    get_preference_key (findPrinterCandidates dedupePrinters "pixmapro100 P900".data)
      = "P900-pixmapro100".data ∧
    specCandidateKey dedupePrinters "pixmapro100 P900".data
      ≠ get_preference_key
          (findPrinterCandidates dedupePrinters "pixmapro100 P900".data) := by
  refine ⟨by decide, by decide, by decide⟩

/-- **C9 (amended).** The candidate list is computed only from which alias
keys occur case-insensitively in the filename (one representative — the
longest occurring key, earlier table entries winning ties — per canonical
device), and the preference key is those representative keys sorted and
hyphen-joined; hence two filenames in which exactly the same alias keys occur,
in any order or position, produce identical candidates and the same lookup
key. -/
theorem candidates_from_occurrences (printers : List (List Char × List Char))
    (fn1 fn2 : List Char)
    (h : ∀ kv ∈ printers,
      Txt.containsL (Txt.lowerL fn1) (Txt.lowerL kv.1)
        = Txt.containsL (Txt.lowerL fn2) (Txt.lowerL kv.1)) :
    findPrinterCandidates printers fn1 = findPrinterCandidates printers fn2 ∧
    get_preference_key (findPrinterCandidates printers fn1)
      = get_preference_key (findPrinterCandidates printers fn2) := by
  have hfold : ∀ (ps : List (List Char × List Char)),
      (∀ kv ∈ ps,
        Txt.containsL (Txt.lowerL fn1) (Txt.lowerL kv.1)
          = Txt.containsL (Txt.lowerL fn2) (Txt.lowerL kv.1)) →
      ∀ acc : List (List Char × (List Char × List Char)),
      (ps.foldl
        (fun acc kv =>
          if Txt.containsL (Txt.lowerL fn1) (Txt.lowerL kv.1) then bumpCand acc kv.1 kv.2
          else acc) acc)
      = (ps.foldl
        (fun acc kv =>
          if Txt.containsL (Txt.lowerL fn2) (Txt.lowerL kv.1) then bumpCand acc kv.1 kv.2
          else acc) acc) := by
    intro ps hps
    induction ps with
    | nil => intro acc; rfl
    | cons hd tl ih =>
      intro acc
      simp only [List.foldl_cons]
      rw [hps hd (List.mem_cons_self _ _)]
      exact ih (fun kv hkv => hps kv (List.mem_cons_of_mem _ hkv)) _
  have h1 : findPrinterCandidates printers fn1 = findPrinterCandidates printers fn2 := by
    show (List.map Prod.snd _) = (List.map Prod.snd _)
    rw [hfold printers h []]
  exact ⟨h1, by rw [h1]⟩

/-- Witness for the C9 amended theorem: two filenames containing the same
alias keys in different order and position produce identical candidate lists
and the same preference key. -/
theorem candidates_from_occurrences_witness :
    (∀ kv ∈ dedupePrinters,
      Txt.containsL (Txt.lowerL "pixmapro100 P900".data) (Txt.lowerL kv.1)
        = Txt.containsL (Txt.lowerL "p900 and PIXMAPRO100".data) (Txt.lowerL kv.1)) ∧
    findPrinterCandidates dedupePrinters "pixmapro100 P900".data
      = findPrinterCandidates dedupePrinters "p900 and PIXMAPRO100".data ∧
    get_preference_key (findPrinterCandidates dedupePrinters "pixmapro100 P900".data)
      = get_preference_key
          (findPrinterCandidates dedupePrinters "p900 and PIXMAPRO100".data) :=
  ⟨by decide,
    candidates_from_occurrences dedupePrinters "pixmapro100 P900".data
      "p900 and PIXMAPRO100".data (by decide)⟩

end Organizer

namespace Matcher

/-- **C4.** Pattern rules are evaluated in strictly descending declared
priority and the first success wins, with no merging: for any two rules of
different priorities that both match a filename, the higher-priority rule's
result is returned whichever order the two rules appear in the catalog list
passed to the matcher. -/
theorem priority_determinism
    (printers brandMap : List (List Char × List Char)) (p q : FilenamePattern)
    (fn : List Char) (rp rq : List Char × List Char × List Char)
    (hpq : q.priority < p.priority)
    (hp : try_pattern printers brandMap p (Fmt.replaceCh '+' ' ' (stemL fn)) = some rp)
    (hq : try_pattern printers brandMap q (Fmt.replaceCh '+' ' ' (stemL fn)) = some rq) :
    match_filename printers brandMap [p, q] fn = some rp ∧
    match_filename printers brandMap [q, p] fn = some rp := by
  have hle : decide (q.priority ≤ p.priority) = true := decide_eq_true (le_of_lt hpq)
  have hnle : decide (p.priority ≤ q.priority) = false :=
    decide_eq_false (not_le.2 hpq)
  have hs1 : sortPatterns [p, q] = [p, q] := by
    simp [sortPatterns, Txt.insSort, Txt.insertSorted, hle]
  have hs2 : sortPatterns [q, p] = [p, q] := by
    simp [sortPatterns, Txt.insSort, Txt.insertSorted, hle, hnle]
  constructor
  · simp only [match_filename, hs1, firstSome, hp]
  · simp only [match_filename, hs2, firstSome, hp]

/-- Witness for C4: two catch-all rules at priorities 100 and 10 that differ
only in their fixed brand; on `"P900.icc"` both match, and in either catalog
order the result carries the priority-100 rule's brand. -/
theorem priority_determinism_witness :
    patLow.priority < patHigh.priority ∧
    try_pattern onePrinter [] patHigh (Fmt.replaceCh '+' ' ' (stemL "P900.icc".data))
      = some ("Epson P900".data, "Brand A".data, "Unknown".data) ∧
    try_pattern onePrinter [] patLow (Fmt.replaceCh '+' ' ' (stemL "P900.icc".data))
      = some ("Epson P900".data, "Brand B".data, "Unknown".data) ∧
    match_filename onePrinter [] [patHigh, patLow] "P900.icc".data
      = some ("Epson P900".data, "Brand A".data, "Unknown".data) ∧
    match_filename onePrinter [] [patLow, patHigh] "P900.icc".data
      = some ("Epson P900".data, "Brand A".data, "Unknown".data) := by
  have hpre : Fmt.replaceCh '+' ' ' (stemL "P900.icc".data) = "P900".data := by decide
  have hp : try_pattern onePrinter [] patHigh (Fmt.replaceCh '+' ' ' (stemL "P900.icc".data))
      = some ("Epson P900".data, "Brand A".data, "Unknown".data) := by
    rw [hpre]
    simp [try_pattern, computeRemaining, split, splitOnAux, Txt.startsWithL,
      extractAll, extractField, resolvePrinterPart, Txt.lookupA, normalize_brand,
      patHigh, onePrinter, firstSome]
  have hq : try_pattern onePrinter [] patLow (Fmt.replaceCh '+' ' ' (stemL "P900.icc".data))
      = some ("Epson P900".data, "Brand B".data, "Unknown".data) := by
    rw [hpre]
    simp [try_pattern, computeRemaining, split, splitOnAux, Txt.startsWithL,
      extractAll, extractField, resolvePrinterPart, Txt.lookupA, normalize_brand,
      patLow, onePrinter, firstSome]
  have hd := priority_determinism onePrinter [] patHigh patLow "P900.icc".data
    ("Epson P900".data, "Brand A".data, "Unknown".data)
    ("Epson P900".data, "Brand B".data, "Unknown".data) (by decide) hp hq
  exact ⟨by decide, hp, hq, hd.1, hd.2⟩

/-- **C6 (amended).** For every filename and rule (once the rule's prefix
matched, leaving remainder `rem`): the rule produces a result only if the
field extraction resolves a `printer` entry; when no `brand` field is
resolved, the returned brand is the brand-alias normalization of the rule's
fixed brand value if one is declared and of `"Unknown"` otherwise; and when no
`paper_type` field is resolved, the returned material is `"Unknown"`, passed
through the paper-type formatter when the rule enables formatting. -/
theorem try_pattern_fallbacks
    (printers brandMap : List (List Char × List Char)) (pat : FilenamePattern)
    (fn rem : List Char)
    (hrem : computeRemaining pat fn = some rem) :
    (Txt.lookupA (extractAll printers pat (split pat.delimiter rem) fn) "printer".data
        = none → try_pattern printers brandMap pat fn = none) ∧
    (∀ pr res,
      Txt.lookupA (extractAll printers pat (split pat.delimiter rem) fn) "printer".data
        = some pr →
      try_pattern printers brandMap pat fn = some res →
      res.1 = pr ∧
      (Txt.lookupA (extractAll printers pat (split pat.delimiter rem) fn) "brand".data
          = none →
        res.2.1 = normalize_brand brandMap (pat.brandValue.getD "Unknown".data)) ∧
      (Txt.lookupA (extractAll printers pat (split pat.delimiter rem) fn)
          "paper_type".data = none →
        res.2.2 = if pat.ptp.format then
            Fmt.format_paper_type "Unknown".data pat.ptp.removeBrand
          else "Unknown".data)) := by
  constructor
  · intro hnone
    simp [try_pattern, hrem, hnone]
  · intro pr res hpr hres
    simp only [try_pattern, hrem, hpr] at hres
    obtain rfl := (Option.some.inj hres).symm
    refine ⟨rfl, ?_, ?_⟩
    · intro hb
      cases hbv : pat.brandValue with
      | none => simp [hbv, hb]
      | some bv => simp [hbv]
    · intro hpt
      simp [hpt]

/-- **C6 counterexample.** A rule with fixed brand value `"Moab"` and no brand
field, under the brand mapping `Moab → MOAB` (present in the source's default
table): the returned brand is `"MOAB"`, not the rule's fixed value `"Moab"`,
because `_try_pattern` passes the fixed value through `_normalize_brand`. -/
theorem fixed_brand_normalized :
    try_pattern onePrinter moabBrandMap patMoab "P900".data
      = some ("Epson P900".data, "MOAB".data, "Unknown".data) ∧
    Txt.lookupA (extractAll onePrinter patMoab (split patMoab.delimiter "P900".data)
        "P900".data) "brand".data = none ∧
    patMoab.brandValue = some "Moab".data ∧
    "MOAB".data ≠ "Moab".data := by
  refine ⟨?_, ?_, rfl, by decide⟩
  · simp [try_pattern, computeRemaining, split, splitOnAux, Txt.startsWithL,
      extractAll, extractField, resolvePrinterPart, Txt.lookupA, normalize_brand,
      patMoab, onePrinter, moabBrandMap, firstSome]
  · simp [split, splitOnAux, Txt.startsWithL, extractAll, extractField,
      resolvePrinterPart, Txt.lookupA, patMoab, onePrinter]

/-- Witness for C6: the amended theorem applied to the `Moab`-brand rule on
`"P900"`. -/
theorem try_pattern_fallbacks_witness :
    computeRemaining patMoab "P900".data = some "P900".data ∧
    Txt.lookupA (extractAll onePrinter patMoab (split patMoab.delimiter "P900".data)
        "P900".data) "printer".data = some "Epson P900".data ∧
    try_pattern onePrinter moabBrandMap patMoab "P900".data
      = some ("Epson P900".data, "MOAB".data, "Unknown".data) ∧
    Txt.lookupA (extractAll onePrinter patMoab (split patMoab.delimiter "P900".data)
        "P900".data) "brand".data = none ∧
    ("Epson P900".data, "MOAB".data, "Unknown".data).2.1
      = normalize_brand moabBrandMap (patMoab.brandValue.getD "Unknown".data) := by
  have hrem : computeRemaining patMoab "P900".data = some "P900".data := rfl
  have hpr : Txt.lookupA (extractAll onePrinter patMoab
      (split patMoab.delimiter "P900".data) "P900".data) "printer".data
      = some "Epson P900".data := by
    simp [split, splitOnAux, Txt.startsWithL, extractAll, extractField,
      resolvePrinterPart, Txt.lookupA, patMoab, onePrinter, firstSome]
  have hres : try_pattern onePrinter moabBrandMap patMoab "P900".data
      = some ("Epson P900".data, "MOAB".data, "Unknown".data) := by
    simp [try_pattern, computeRemaining, split, splitOnAux, Txt.startsWithL,
      extractAll, extractField, resolvePrinterPart, Txt.lookupA, normalize_brand,
      patMoab, onePrinter, moabBrandMap, firstSome]
  have hbn : Txt.lookupA (extractAll onePrinter patMoab
      (split patMoab.delimiter "P900".data) "P900".data) "brand".data = none := by
    simp [split, splitOnAux, Txt.startsWithL, extractAll, extractField,
      resolvePrinterPart, Txt.lookupA, patMoab, onePrinter]
  exact ⟨hrem, hpr, hres, hbn,
    ((try_pattern_fallbacks onePrinter moabBrandMap patMoab "P900".data "P900".data
      hrem).2 "Epson P900".data ("Epson P900".data, "MOAB".data, "Unknown".data)
      hpr hres).2.1 hbn⟩

end Matcher

/-! ### Character-level facts for the formatter proofs -/

namespace Txt

theorem char_toNat_ofNat (n : Nat) (h : n < 55296) : (Char.ofNat n).toNat = n := by
  rw [Char.ofNat, dif_pos (Or.inl h)]
  rfl

theorem charLe_iff (a b : Char) : a ≤ b ↔ a.toNat ≤ b.toNat := Iff.rfl

theorem charEq_iff (a b : Char) : a = b ↔ a.toNat = b.toNat := by
  constructor
  · intro h; rw [h]
  · intro h; exact Char.ext (UInt32.toNat.inj h)

theorem isLo_iff (c : Char) : isLo c = true ↔ 97 ≤ c.toNat ∧ c.toNat ≤ 122 := by
  simp [isLo, charLe_iff]

theorem isUp_iff (c : Char) : isUp c = true ↔ 65 ≤ c.toNat ∧ c.toNat ≤ 90 := by
  simp [isUp, charLe_iff]

theorem isDig_iff (c : Char) : isDig c = true ↔ 48 ≤ c.toNat ∧ c.toNat ≤ 57 := by
  simp [isDig, charLe_iff]

theorem isWs_iff (c : Char) : isWs c = true ↔
    c.toNat = 32 ∨ c.toNat = 9 ∨ c.toNat = 10 ∨ c.toNat = 13 ∨ c.toNat = 11 ∨
      c.toNat = 12 := by
  simp [isWs, charEq_iff]
  tauto

theorem toNat_upChar (c : Char) (h : isLo c = true) :
    (upChar c).toNat = c.toNat - 32 := by
  have hr := (isLo_iff c).mp h
  rw [upChar, if_pos h]
  exact char_toNat_ofNat _ (by omega)

theorem upChar_eq_self (c : Char) (h : isLo c = false) : upChar c = c := by
  rw [upChar, if_neg]
  simp [h]

theorem isUp_upChar_of_isLo (c : Char) (h : isLo c = true) :
    isUp (upChar c) = true := by
  have hr := (isLo_iff c).mp h
  rw [isUp_iff, toNat_upChar c h]
  omega

theorem isLo_upChar (c : Char) : isLo (upChar c) = false := by
  cases h : isLo c with
  | false => rw [upChar_eq_self c h]; exact h
  | true =>
    have hr := (isLo_iff c).mp h
    rw [← Bool.not_eq_true, isLo_iff, toNat_upChar c h]
    omega

theorem upChar_upChar (c : Char) : upChar (upChar c) = upChar c :=
  upChar_eq_self _ (isLo_upChar c)

theorem isWs_upChar (c : Char) : isWs (upChar c) = isWs c := by
  cases h : isLo c with
  | false => rw [upChar_eq_self c h]
  | true =>
    have hr := (isLo_iff c).mp h
    have h1 : isWs (upChar c) = false := by
      rw [← Bool.not_eq_true, isWs_iff, toNat_upChar c h]
      omega
    have h2 : isWs c = false := by
      rw [← Bool.not_eq_true, isWs_iff]
      omega
    rw [h1, h2]

theorem isDig_upChar (c : Char) : isDig (upChar c) = isDig c := by
  cases h : isLo c with
  | false => rw [upChar_eq_self c h]
  | true =>
    have hr := (isLo_iff c).mp h
    have h1 : isDig (upChar c) = false := by
      rw [← Bool.not_eq_true, isDig_iff, toNat_upChar c h]
      omega
    have h2 : isDig c = false := by
      rw [← Bool.not_eq_true, isDig_iff]
      omega
    rw [h1, h2]

theorem isLet_upChar (c : Char) : isLet (upChar c) = isLet c := by
  cases h : isLo c with
  | false => rw [upChar_eq_self c h]
  | true =>
    have h1 : isLet (upChar c) = true := by
      simp [isLet, isUp_upChar_of_isLo c h]
    have h2 : isLet c = true := by
      simp [isLet, h]
    rw [h1, h2]

theorem upChar_eq_underscore (c : Char) (h : upChar c = '_') : c = '_' := by
  cases hl : isLo c with
  | false => rw [upChar_eq_self c hl] at h; exact h
  | true =>
    exfalso
    have hr := (isLo_iff c).mp hl
    have := (charEq_iff _ _).mp h
    rw [toNat_upChar c hl] at this
    simp at this
    omega

theorem upChar_eq_plus (c : Char) (h : upChar c = '+') : c = '+' := by
  cases hl : isLo c with
  | false => rw [upChar_eq_self c hl] at h; exact h
  | true =>
    exfalso
    have hr := (isLo_iff c).mp hl
    have := (charEq_iff _ _).mp h
    rw [toNat_upChar c hl] at this
    simp at this
    omega

theorem isUp_of_isLo_false (c : Char) (h : isLo c = true) : isUp c = false := by
  have hr := (isLo_iff c).mp h
  rw [← Bool.not_eq_true, isUp_iff]
  omega

theorem ne_space_of_not_ws (c : Char) (h : isWs c = false) : ¬ c = ' ' := by
  intro hc
  rw [hc] at h
  simp [isWs] at h

end Txt

/-! ### `camelSub` facts -/

namespace Fmt

theorem camelSub_nil : camelSub [] = [] := by
  simp [camelSub]

theorem camelSub_single (c : Char) : camelSub [c] = [c] := by
  simp [camelSub]

theorem camelSub_match (c d : Char) (rest : List Char)
    (hc : Txt.isUp c = true) (hd : Txt.isLo d = true) :
    camelSub (c :: d :: rest) =
      ' ' :: c :: ((d :: rest).takeWhile Txt.isLo
        ++ camelSub ((d :: rest).dropWhile Txt.isLo)) := by
  rw [camelSub.eq_def]
  simp [hc, hd]

theorem camelSub_cons_of_not_up (c : Char) (rest : List Char)
    (hc : Txt.isUp c = false) :
    camelSub (c :: rest) = c :: camelSub rest := by
  rw [camelSub.eq_def]
  cases rest <;> simp [hc]

theorem camelSub_cons_of_not_lo (c d : Char) (rest : List Char)
    (hd : Txt.isLo d = false) :
    camelSub (c :: d :: rest) = c :: camelSub (d :: rest) := by
  rw [camelSub.eq_def]
  simp [hd]

theorem camelSub_head (d : Char) (r : List Char) :
    (∃ t, camelSub (d :: r) = d :: t) ∨ (∃ t, camelSub (d :: r) = ' ' :: d :: t) := by
  cases r with
  | nil => exact Or.inl ⟨[], camelSub_single d⟩
  | cons e r' =>
    by_cases h : Txt.isUp d = true ∧ Txt.isLo e = true
    · exact Or.inr ⟨_, camelSub_match d e r' h.1 h.2⟩
    · rcases Bool.eq_false_or_eq_true (Txt.isUp d) with hu | hu
      · have he : Txt.isLo e = false := by
          rcases Bool.eq_false_or_eq_true (Txt.isLo e) with he | he
          · exact absurd ⟨hu, he⟩ h
          · exact he
        exact Or.inl ⟨_, camelSub_cons_of_not_lo d e r' he⟩
      · exact Or.inl ⟨_, camelSub_cons_of_not_up d (e :: r') hu⟩

theorem camel_append_space (a b : List Char) :
    camelSub (a ++ ' ' :: b) = camelSub a ++ ' ' :: camelSub b := by
  match a with
  | [] =>
    rw [List.nil_append, camelSub_cons_of_not_up ' ' b (by decide), camelSub_nil,
      List.nil_append]
  | [c] =>
    rw [List.cons_append, List.nil_append,
      camelSub_cons_of_not_lo c ' ' b (by decide),
      camelSub_cons_of_not_up ' ' b (by decide), camelSub_single]
    rfl
  | c :: d :: rest' =>
    by_cases h : Txt.isUp c = true ∧ Txt.isLo d = true
    · have hsplit : (c :: d :: rest') ++ ' ' :: b = c :: d :: (rest' ++ ' ' :: b) := rfl
      rw [hsplit, camelSub_match c d (rest' ++ ' ' :: b) h.1 h.2,
        camelSub_match c d rest' h.1 h.2]
      have htw : (d :: (rest' ++ ' ' :: b)).takeWhile Txt.isLo
          = (d :: rest').takeWhile Txt.isLo := by
        have : (d :: rest') ++ ' ' :: b = d :: (rest' ++ ' ' :: b) := rfl
        rw [← this, List.takeWhile_append]
        split
        · rename_i hlen
          have : (d :: rest').takeWhile Txt.isLo = d :: rest' :=
            (List.takeWhile_prefix Txt.isLo).eq_of_length hlen
          rw [this, List.takeWhile_cons_of_neg (by decide : ¬ Txt.isLo ' ' = true),
            List.append_nil]
        · rfl
      have hdw : (d :: (rest' ++ ' ' :: b)).dropWhile Txt.isLo
          = (d :: rest').dropWhile Txt.isLo ++ ' ' :: b := by
        have hrw : (d :: rest') ++ ' ' :: b = d :: (rest' ++ ' ' :: b) := rfl
        rw [← hrw, List.dropWhile_append]
        split
        · rename_i hemp
          rw [List.isEmpty_iff] at hemp
          rw [hemp, List.nil_append,
            List.dropWhile_cons_of_neg (by decide : ¬ Txt.isLo ' ' = true)]
        · rfl
      rw [htw, hdw, camel_append_space ((d :: rest').dropWhile Txt.isLo) b]
      simp
    · rcases Bool.eq_false_or_eq_true (Txt.isUp c) with hu | hu
      · have he : Txt.isLo d = false := by
          rcases Bool.eq_false_or_eq_true (Txt.isLo d) with he | he
          · exact absurd ⟨hu, he⟩ h
          · exact he
        have h1 : (c :: d :: rest') ++ ' ' :: b = c :: d :: (rest' ++ ' ' :: b) := rfl
        rw [h1, camelSub_cons_of_not_lo c d (rest' ++ ' ' :: b) he,
          camelSub_cons_of_not_lo c d rest' he]
        have h2 : d :: (rest' ++ ' ' :: b) = (d :: rest') ++ ' ' :: b := rfl
        rw [h2, camel_append_space (d :: rest') b]
        rfl
      · have h1 : (c :: d :: rest') ++ ' ' :: b = c :: ((d :: rest') ++ ' ' :: b) := rfl
        rw [h1, camelSub_cons_of_not_up c ((d :: rest') ++ ' ' :: b) hu,
          camelSub_cons_of_not_up c (d :: rest') hu,
          camel_append_space (d :: rest') b]
        rfl
termination_by a.length
decreasing_by
  · have h1 : ((d :: rest').dropWhile Txt.isLo).length ≤ (d :: rest').length :=
      (List.dropWhile_sublist Txt.isLo).length_le
    simp only [List.length_cons] at h1 ⊢
    omega
  · simp
  · simp

theorem noUL_tail (c : Char) (rest : List Char) (h : noUL (c :: rest) = true) :
    noUL rest = true := by
  cases rest with
  | nil => simp [noUL]
  | cons d r =>
    rw [noUL.eq_def] at h
    simp at h
    exact h.2

theorem noUL_cons (a : Char) (l : List Char) (hl : noUL l = true)
    (hcond : ∀ b r, l = b :: r → (Txt.isUp a && Txt.isLo b) = false) :
    noUL (a :: l) = true := by
  cases l with
  | nil => simp [noUL]
  | cons b r =>
    rw [noUL.eq_def]
    simp only [Bool.and_eq_true]
    exact ⟨by simp [hcond b r rfl], hl⟩

theorem noUL_suffix (t s : List Char) (h : t <:+ s) (hs : noUL s = true) :
    noUL t = true := by
  obtain ⟨u, rfl⟩ := h
  induction u with
  | nil => exact hs
  | cons x u' ih => exact ih (noUL_tail x (u' ++ t) hs)

theorem band_true_left {a b : Bool} (h : (a && b) = true) : a = true := by
  simp at h
  exact h.1

theorem band_true_right {a b : Bool} (h : (a && b) = true) : b = true := by
  simp at h
  exact h.2

theorem camelSub_eq_self_of_noUL (s : List Char) (h : noUL s = true) :
    camelSub s = s := by
  match s with
  | [] => exact camelSub_nil
  | [c] => exact camelSub_single c
  | c :: d :: r =>
    have htl : noUL (d :: r) = true := noUL_tail c (d :: r) h
    have hrec := camelSub_eq_self_of_noUL (d :: r) htl
    rw [noUL.eq_def] at h
    simp at h
    rcases h.1 with hu | hd
    · rw [camelSub_cons_of_not_up c (d :: r) hu, hrec]
    · rw [camelSub_cons_of_not_lo c d r hd, hrec]
termination_by s.length

theorem camelOK3_tail (x : Char) (l : List Char) (h : camelOK3 (x :: l) = true) :
    camelOK3 l = true := by
  match l with
  | [] => simp [camelOK3]
  | [u] => simp [camelOK3]
  | u :: v :: r =>
    rw [camelOK3.eq_def] at h
    simp only [Bool.and_eq_true] at h
    exact h.2

theorem camelOK3_cons (a : Char) (l : List Char) (hl : camelOK3 l = true)
    (hcond : ∀ b c r, l = b :: c :: r → (Txt.isUp b && Txt.isLo c) = true → a = ' ') :
    camelOK3 (a :: l) = true := by
  match l with
  | [] => simp [camelOK3]
  | [u] => simp [camelOK3]
  | u :: v :: r =>
    rw [camelOK3.eq_def]
    simp only [Bool.and_eq_true]
    refine ⟨?_, hl⟩
    cases hp : (Txt.isUp u && Txt.isLo v) with
    | false => simp
    | true => simp [hcond u v r rfl hp]

theorem camelOK3_drop_left (u t : List Char) (h : camelOK3 (u ++ t) = true) :
    camelOK3 t = true := by
  induction u with
  | nil => exact h
  | cons x u' ih => exact ih (camelOK3_tail x (u' ++ t) h)

theorem camelOK3_take_left (l t : List Char) (h : camelOK3 (l ++ t) = true) :
    camelOK3 l = true := by
  match l with
  | [] => simp [camelOK3]
  | [a] => simp [camelOK3]
  | [a, b] => simp [camelOK3]
  | a :: b :: c :: r =>
    have h' : camelOK3 ((a :: b :: c :: r) ++ t)
        = (((!(Txt.isUp b && Txt.isLo c)) || decide (a = ' '))
            && camelOK3 ((b :: c :: r) ++ t)) := by
      rw [camelOK3.eq_def]
      rfl
    rw [h'] at h
    simp only [Bool.and_eq_true] at h
    have hrec := camelOK3_take_left (b :: c :: r) t h.2
    rw [camelOK3.eq_def]
    simp only [Bool.and_eq_true]
    exact ⟨h.1, hrec⟩
termination_by l.length

theorem camelOK3_suffix (t s : List Char) (h : t <:+ s) (hs : camelOK3 s = true) :
    camelOK3 t = true := by
  obtain ⟨u, rfl⟩ := h
  exact camelOK3_drop_left u t hs

theorem camelOK3_prefix (l s : List Char) (h : l <+: s) (hs : camelOK3 s = true) :
    camelOK3 l = true := by
  obtain ⟨t, rfl⟩ := h
  exact camelOK3_take_left l t hs

/-- Lowercase runs can be prepended to a `camelSub` tail without breaking the
shape invariant, for any head. -/
theorem camelOK3_lo_chunk (u : List Char) (hu : ∀ e ∈ u, Txt.isLo e = true)
    (T : List Char) (hbase : ∀ z, camelOK3 (z :: T) = true) :
    ∀ z, camelOK3 (z :: u ++ T) = true := by
  induction u with
  | nil => exact hbase
  | cons e u' ih =>
    intro z
    have hih := ih (fun x hx => hu x (List.mem_cons_of_mem e hx))
    refine camelOK3_cons z (e :: (u' ++ T)) (hih e) ?_
    intro b c r hbr hp
    injection hbr with h1 h2
    subst h1
    exfalso
    have hb : Txt.isUp e = true := band_true_left hp
    have hbf : Txt.isUp e = false :=
      Txt.isUp_of_isLo_false e (hu e (List.mem_cons_self e u'))
    rw [hbf] at hb
    exact Bool.false_ne_true hb

/-- The output of `camelSub` satisfies the shape invariant whatever character
precedes it. -/
theorem camelOK3_cons_camelSub (s : List Char) (x : Char) :
    camelOK3 (x :: camelSub s) = true := by
  match s with
  | [] =>
    rw [camelSub_nil]
    simp [camelOK3]
  | [c] =>
    rw [camelSub_single]
    simp [camelOK3]
  | c :: d :: r' =>
    by_cases h : Txt.isUp c = true ∧ Txt.isLo d = true
    · rw [camelSub_match c d r' h.1 h.2]
      have hchunk : ∀ z, camelOK3 (z :: ((d :: r').takeWhile Txt.isLo
          ++ camelSub ((d :: r').dropWhile Txt.isLo))) = true := by
        refine camelOK3_lo_chunk ((d :: r').takeWhile Txt.isLo)
          (fun e he => List.mem_takeWhile_imp he) _ ?_
        intro z
        exact camelOK3_cons_camelSub ((d :: r').dropWhile Txt.isLo) z
      have hc1 : camelOK3 (' ' :: c :: ((d :: r').takeWhile Txt.isLo
          ++ camelSub ((d :: r').dropWhile Txt.isLo))) = true := by
        refine camelOK3_cons ' ' _ (hchunk c) ?_
        intro b cc rr hbr hp
        rfl
      refine camelOK3_cons x _ hc1 ?_
      intro b cc rr hbr hp
      injection hbr with h1 h2
      subst h1
      exact absurd (band_true_left hp) (by decide)
    · have hfalse : (Txt.isUp c &&
          (match d :: r' with | e :: _ => Txt.isLo e | [] => false)) = false := by
        simp only []
        cases hu : Txt.isUp c with
        | false => simp
        | true =>
          cases hd : Txt.isLo d with
          | false => simp
          | true => exact absurd ⟨hu, hd⟩ h
      have heq : camelSub (c :: d :: r') = c :: camelSub (d :: r') := by
        rw [camelSub.eq_def]
        simp only [hfalse]
        simp
      rw [heq]
      have hinner : camelOK3 (c :: camelSub (d :: r')) = true :=
        camelOK3_cons_camelSub (d :: r') c
      refine camelOK3_cons x _ hinner ?_
      intro b cc rr hbr hp
      injection hbr with h1 h2
      subst h1
      exfalso
      rcases camelSub_head d r' with ⟨t, ht⟩ | ⟨t, ht⟩
      · rw [ht] at h2
        injection h2 with h3 h4
        subst h3
        exact h ⟨band_true_left hp, band_true_right hp⟩
      · rw [ht] at h2
        injection h2 with h3 h4
        subst h3
        exact absurd (band_true_right hp) (by decide)
termination_by s.length
decreasing_by
  · refine Nat.lt_of_le_of_lt ((List.dropWhile_sublist Txt.isLo).length_le) ?_
    simp
  · simp

theorem camelOK3_camelSub (s : List Char) : camelOK3 (camelSub s) = true :=
  camelOK3_tail ' ' (camelSub s) (camelOK3_cons_camelSub s ' ')

end Fmt

/-! ### `digitSub` facts -/

namespace Fmt

theorem digitSub_nil : digitSub [] = [] := by
  simp [digitSub]

theorem digitSub_single (c : Char) : digitSub [c] = [c] := by
  simp [digitSub]

theorem digitSub_match (a b : Char) (rest : List Char)
    (h : (Txt.isLet a && Txt.isDig b) = true) :
    digitSub (a :: b :: rest) = a :: ' ' :: b :: digitSub rest := by
  rw [digitSub.eq_def]
  simp [h]

theorem digitSub_nomatch (a b : Char) (rest : List Char)
    (h : (Txt.isLet a && Txt.isDig b) = false) :
    digitSub (a :: b :: rest) = a :: digitSub (b :: rest) := by
  rw [digitSub.eq_def]
  simp [h]

theorem digitSub_head (h : Char) (t : List Char) :
    ∃ t', digitSub (h :: t) = h :: t' := by
  cases t with
  | nil => exact ⟨[], digitSub_single h⟩
  | cons b rest =>
    cases hp : (Txt.isLet h && Txt.isDig b) with
    | true => exact ⟨_, digitSub_match h b rest hp⟩
    | false => exact ⟨_, digitSub_nomatch h b rest hp⟩

theorem digitSub_space_cons (t : List Char) : digitSub (' ' :: t) = ' ' :: digitSub t := by
  cases t with
  | nil => rw [digitSub_single, digitSub_nil]
  | cons b rest => exact digitSub_nomatch ' ' b rest (by simp [Txt.isLet, Txt.isUp, Txt.isLo])

theorem noLD_tail (c : Char) (rest : List Char) (h : noLD (c :: rest) = true) :
    noLD rest = true := by
  cases rest with
  | nil => simp [noLD]
  | cons d r =>
    rw [noLD.eq_def] at h
    simp only [Bool.and_eq_true] at h
    exact h.2

theorem noLD_cons (a : Char) (l : List Char) (hl : noLD l = true)
    (hcond : ∀ b r, l = b :: r → (Txt.isLet a && Txt.isDig b) = false) :
    noLD (a :: l) = true := by
  cases l with
  | nil => simp [noLD]
  | cons b r =>
    rw [noLD.eq_def]
    simp only [Bool.and_eq_true]
    exact ⟨by simp [hcond b r rfl], hl⟩

theorem noLD_pair (a b : Char) (r : List Char) (h : noLD (a :: b :: r) = true) :
    (Txt.isLet a && Txt.isDig b) = false := by
  rw [noLD.eq_def] at h
  simp only [Bool.and_eq_true] at h
  have := h.1
  cases hp : (Txt.isLet a && Txt.isDig b) with
  | false => rfl
  | true => rw [hp] at this; simp at this

theorem digitSub_eq_self_of_noLD (s : List Char) (h : noLD s = true) :
    digitSub s = s := by
  match s with
  | [] => exact digitSub_nil
  | [c] => exact digitSub_single c
  | a :: b :: r =>
    rw [digitSub_nomatch a b r (noLD_pair a b r h),
      digitSub_eq_self_of_noLD (b :: r) (noLD_tail a (b :: r) h)]
termination_by s.length

theorem noLD_digitSub (s : List Char) : noLD (digitSub s) = true := by
  match s with
  | [] => rw [digitSub_nil]; simp [noLD]
  | [c] => rw [digitSub_single]; simp [noLD]
  | a :: b :: r =>
    cases hp : (Txt.isLet a && Txt.isDig b) with
    | true =>
      have hrecr := noLD_digitSub r
      have hbd : Txt.isDig b = true := band_true_right hp
      have hnl : Txt.isLet b = false := by
        have hr := (Txt.isDig_iff b).mp hbd
        cases hl : Txt.isLet b with
        | false => rfl
        | true =>
          exfalso
          have hl' : Txt.isUp b = true ∨ Txt.isLo b = true := by
            simpa [Txt.isLet] using hl
          rcases hl' with h5 | h5
          · have := (Txt.isUp_iff b).mp h5
            omega
          · have := (Txt.isLo_iff b).mp h5
            omega
      rw [digitSub_match a b r hp]
      have h3 : noLD (b :: digitSub r) = true := by
        refine noLD_cons b (digitSub r) hrecr ?_
        intro b' r'' h'
        simp [hnl]
      refine noLD_cons a (' ' :: b :: digitSub r) ?_ ?_
      · refine noLD_cons ' ' (b :: digitSub r) h3 ?_
        intro b' r'' h'
        simp [show Txt.isLet ' ' = false from by decide]
      · intro b' r'' h'
        injection h' with h1 h2
        subst h1
        simp [show Txt.isDig ' ' = false from by decide]
    | false =>
      have hrec := noLD_digitSub (b :: r)
      obtain ⟨t', ht'⟩ := digitSub_head b r
      rw [digitSub_nomatch a b r hp]
      refine noLD_cons a (digitSub (b :: r)) hrec ?_
      intro b' r'' h'
      rw [ht'] at h'
      injection h' with h1 h2
      subst h1
      exact hp
termination_by s.length

end Fmt

namespace Fmt

theorem digit_append_space (a b : List Char) :
    digitSub (a ++ ' ' :: b) = digitSub a ++ ' ' :: digitSub b := by
  match a with
  | [] =>
    rw [List.nil_append, digitSub_nil, digitSub_space_cons, List.nil_append]
  | [x] =>
    have h1 : [x] ++ ' ' :: b = x :: ' ' :: b := rfl
    rw [h1, digitSub_nomatch x ' ' b (by simp [show Txt.isDig ' ' = false from by decide]),
      digitSub_space_cons, digitSub_single]
    rfl
  | x :: y :: rest =>
    have h1 : (x :: y :: rest) ++ ' ' :: b = x :: y :: (rest ++ ' ' :: b) := rfl
    cases hp : (Txt.isLet x && Txt.isDig y) with
    | true =>
      rw [h1, digitSub_match x y (rest ++ ' ' :: b) hp, digitSub_match x y rest hp,
        digit_append_space rest b]
      rfl
    | false =>
      have h2 : y :: (rest ++ ' ' :: b) = (y :: rest) ++ ' ' :: b := rfl
      rw [h1, digitSub_nomatch x y (rest ++ ' ' :: b) hp, h2,
        digit_append_space (y :: rest) b, digitSub_nomatch x y rest hp]
      rfl
termination_by a.length

/-- `digitSub` preserves the camel shape invariant (with any fixed head). -/
theorem camelOK3_cons_digitSub (s : List Char) (x : Char)
    (h : camelOK3 (x :: s) = true) : camelOK3 (x :: digitSub s) = true := by
  match s with
  | [] => rw [digitSub_nil]; exact h
  | [c] => rw [digitSub_single]; exact h
  | a :: b :: r =>
    cases hp : (Txt.isLet a && Txt.isDig b) with
    | true =>
      have hbd : Txt.isDig b = true := band_true_right hp
      have hnb : Txt.isUp b = false := by
        have hr := (Txt.isDig_iff b).mp hbd
        cases hu : Txt.isUp b with
        | false => rfl
        | true =>
          exfalso
          have := (Txt.isUp_iff b).mp hu
          omega
      rw [digitSub_match a b r hp]
      have hinner : camelOK3 (b :: digitSub r) = true := by
        refine camelOK3_cons_digitSub r b ?_
        have h1 : camelOK3 (a :: b :: r) = true := camelOK3_tail x _ h
        exact camelOK3_tail a _ h1
      have h2 : camelOK3 (' ' :: b :: digitSub r) = true := by
        refine camelOK3_cons ' ' _ hinner ?_
        intro u v rr hbr hp2
        rfl
      have h3 : camelOK3 (a :: ' ' :: b :: digitSub r) = true := by
        refine camelOK3_cons a _ h2 ?_
        intro u v rr hbr hp2
        injection hbr with h4 h5
        subst h4
        exact absurd (band_true_left hp2) (by decide)
      refine camelOK3_cons x _ h3 ?_
      intro u v rr hbr hp2
      injection hbr with h4 h5
      subst h4
      injection h5 with h6 h7
      subst h6
      exact absurd (band_true_right hp2) (by decide)
    | false =>
      rw [digitSub_nomatch a b r hp]
      obtain ⟨t', ht'⟩ := digitSub_head b r
      have hinner : camelOK3 (a :: digitSub (b :: r)) = true :=
        camelOK3_cons_digitSub (b :: r) a (camelOK3_tail x _ h)
      refine camelOK3_cons x _ hinner ?_
      intro u v rr hbr hp2
      injection hbr with h4 h5
      subst h4
      rw [ht'] at h5
      injection h5 with h6 h7
      subst h6
      -- the pair (a, b) was already adjacent in the input; reuse its constraint
      rw [camelOK3.eq_def] at h
      simp only [Bool.and_eq_true] at h
      have hcnd := h.1
      rw [hp2] at hcnd
      simpa using hcnd
termination_by s.length

end Fmt

namespace Fmt

theorem noLD_drop_left (u t : List Char) (h : noLD (u ++ t) = true) :
    noLD t = true := by
  induction u with
  | nil => exact h
  | cons x u' ih => exact ih (noLD_tail x (u' ++ t) h)

theorem noLD_take_left (l t : List Char) (h : noLD (l ++ t) = true) :
    noLD l = true := by
  match l with
  | [] => simp [noLD]
  | [a] => simp [noLD]
  | a :: b :: r =>
    have h' : noLD ((a :: b :: r) ++ t)
        = ((!(Txt.isLet a && Txt.isDig b)) && noLD ((b :: r) ++ t)) := by
      rw [noLD.eq_def]
      rfl
    rw [h'] at h
    simp only [Bool.and_eq_true] at h
    rw [noLD.eq_def]
    simp only [Bool.and_eq_true]
    exact ⟨h.1, noLD_take_left (b :: r) t h.2⟩
termination_by l.length

theorem noLD_infix (w s : List Char) (h : w <:+: s) (hs : noLD s = true) :
    noLD w = true := by
  obtain ⟨u, v, rfl⟩ := h
  exact noLD_take_left w v (noLD_drop_left u (w ++ v) (by rwa [← List.append_assoc]))

end Fmt

/-! ### `wordsL`, `collapseWS`, `stripWS` facts -/

namespace Fmt

theorem wordsL_nil : wordsL [] = [] := by
  simp [wordsL]

theorem wordsL_cons_ws (c : Char) (s : List Char) (h : Txt.isWs c = true) :
    wordsL (c :: s) = wordsL s := by
  rw [wordsL.eq_def]
  simp [h]

theorem wordsL_cons_not_ws (c : Char) (s : List Char) (h : Txt.isWs c = false) :
    wordsL (c :: s) =
      (c :: s.takeWhile (fun d => !Txt.isWs d)) ::
        wordsL (s.dropWhile (fun d => !Txt.isWs d)) := by
  rw [wordsL.eq_def]
  simp [h]

theorem wordsL_dropWhile_ws (s : List Char) :
    wordsL (s.dropWhile Txt.isWs) = wordsL s := by
  induction s with
  | nil => rfl
  | cons c rest ih =>
    cases h : Txt.isWs c with
    | true => rw [List.dropWhile_cons_of_pos h, ih, wordsL_cons_ws c rest h]
    | false => rw [List.dropWhile_cons_of_neg (by simp [h])]

theorem wordsL_all_ws (s : List Char) (h : ∀ c ∈ s, Txt.isWs c = true) :
    wordsL s = [] := by
  induction s with
  | nil => exact wordsL_nil
  | cons c rest ih =>
    rw [wordsL_cons_ws c rest (h c (List.mem_cons_self c rest))]
    exact ih fun c hc => h c (List.mem_cons_of_mem _ hc)

theorem wordsL_append_ws (t sp : List Char) (hsp : ∀ c ∈ sp, Txt.isWs c = true) :
    wordsL (t ++ sp) = wordsL t := by
  match t with
  | [] =>
    rw [List.nil_append, wordsL_nil]
    exact wordsL_all_ws sp hsp
  | c :: rest =>
    cases h : Txt.isWs c with
    | true =>
      rw [List.cons_append, wordsL_cons_ws c (rest ++ sp) h, wordsL_cons_ws c rest h]
      exact wordsL_append_ws rest sp hsp
    | false =>
      rw [List.cons_append, wordsL_cons_not_ws c (rest ++ sp) h,
        wordsL_cons_not_ws c rest h]
      by_cases hall : ∀ d ∈ rest, (!Txt.isWs d) = true
      · rw [List.takeWhile_append_of_pos hall, List.dropWhile_append_of_pos hall]
        have h1 : sp.takeWhile (fun d => !Txt.isWs d) = [] := by
          cases hsp' : sp with
          | nil => simp
          | cons x sp' =>
            refine List.takeWhile_cons_of_neg ?_
            simp [hsp x (by rw [hsp']; exact List.mem_cons_self x sp')]
        have h2 : sp.dropWhile (fun d => !Txt.isWs d) = sp := by
          cases hsp' : sp with
          | nil => simp
          | cons x sp' =>
            refine List.dropWhile_cons_of_neg ?_
            simp [hsp x (by rw [hsp']; exact List.mem_cons_self x sp')]
        rw [h1, h2, List.append_nil]
        have h3 : rest.takeWhile (fun d => !Txt.isWs d) = rest :=
          List.takeWhile_eq_self_iff.mpr hall
        have h4 : rest.dropWhile (fun d => !Txt.isWs d) = [] :=
          List.dropWhile_eq_nil_iff.mpr hall
        rw [h3, h4, wordsL_nil, wordsL_all_ws sp hsp]
      · have hstop : (rest.takeWhile (fun d => !Txt.isWs d)).length ≠ rest.length := by
          intro hlen
          have hself : rest.takeWhile (fun d => !Txt.isWs d) = rest :=
            (List.takeWhile_prefix _).eq_of_length hlen
          exact hall (List.takeWhile_eq_self_iff.mp hself)
        rw [List.takeWhile_append, if_neg hstop, List.dropWhile_append]
        have h5 : ¬ (rest.dropWhile (fun d => !Txt.isWs d)).isEmpty = true := by
          simp only [List.isEmpty_iff, List.dropWhile_eq_nil_iff]
          intro hall'
          exact hall hall'
        rw [if_neg h5]
        congr 1
        exact wordsL_append_ws (rest.dropWhile (fun d => !Txt.isWs d)) sp hsp
termination_by t.length
decreasing_by
  all_goals simp only [List.length_cons]
  all_goals try omega
  all_goals
    exact Nat.lt_succ_of_le ((List.dropWhile_sublist (fun d => !Txt.isWs d)).length_le)

end Fmt

namespace Fmt

theorem collapseWS_nil : collapseWS [] = [] := by
  simp [collapseWS]

theorem collapseWS_cons_ws (c : Char) (rest : List Char) (h : Txt.isWs c = true) :
    collapseWS (c :: rest) = ' ' :: collapseWS (rest.dropWhile Txt.isWs) := by
  rw [collapseWS.eq_def]
  simp [h]

theorem collapseWS_cons_not_ws (c : Char) (rest : List Char) (h : Txt.isWs c = false) :
    collapseWS (c :: rest) = c :: collapseWS rest := by
  rw [collapseWS.eq_def]
  simp [h]

theorem collapseWS_chunk (w r : List Char) (hw : ∀ c ∈ w, Txt.isWs c = false) :
    collapseWS (w ++ r) = w ++ collapseWS r := by
  induction w with
  | nil => rfl
  | cons c w' ih =>
    rw [List.cons_append,
      collapseWS_cons_not_ws c (w' ++ r) (hw c (List.mem_cons_self c w')),
      ih fun x hx => hw x (List.mem_cons_of_mem _ hx)]
    rfl

theorem dropWhile_head_false {α : Type} (p : α → Bool) (t : List α) (c : α)
    (r : List α) (h : t.dropWhile p = c :: r) : p c = false := by
  induction t with
  | nil => simp at h
  | cons x t' ih =>
    cases hx : p x with
    | true => rw [List.dropWhile_cons_of_pos hx] at h; exact ih h
    | false =>
      rw [List.dropWhile_cons_of_neg (by simp [hx])] at h
      injection h with h1 h2
      subst h1
      exact hx

theorem wordsL_collapseWS (s : List Char) : wordsL (collapseWS s) = wordsL s := by
  match s with
  | [] => rw [collapseWS_nil]
  | c :: rest =>
    cases h : Txt.isWs c with
    | true =>
      rw [collapseWS_cons_ws c rest h,
        wordsL_cons_ws ' ' _ (by decide), wordsL_cons_ws c rest h,
        wordsL_collapseWS (rest.dropWhile Txt.isWs), wordsL_dropWhile_ws rest]
    | false =>
      have hw : ∀ x ∈ rest.takeWhile (fun d => !Txt.isWs d), Txt.isWs x = false := by
        intro x hx
        have := List.mem_takeWhile_imp hx
        simpa using this
      have hsplit := List.takeWhile_append_dropWhile (fun d => !Txt.isWs d) rest
      have hcw : collapseWS rest
          = rest.takeWhile (fun d => !Txt.isWs d)
            ++ collapseWS (rest.dropWhile (fun d => !Txt.isWs d)) := by
        conv_lhs => rw [← hsplit]
        exact collapseWS_chunk _ _ hw
      rw [collapseWS_cons_not_ws c rest h, hcw, wordsL_cons_not_ws c _ h,
        wordsL_cons_not_ws c rest h]
      cases hr : rest.dropWhile (fun d => !Txt.isWs d) with
      | nil =>
        rw [collapseWS_nil, List.append_nil]
        have h3 : (rest.takeWhile (fun d => !Txt.isWs d)).takeWhile
            (fun d => !Txt.isWs d) = rest.takeWhile (fun d => !Txt.isWs d) :=
          List.takeWhile_eq_self_iff.mpr (by intro x hx; simp [hw x hx])
        have h4 : (rest.takeWhile (fun d => !Txt.isWs d)).dropWhile
            (fun d => !Txt.isWs d) = [] :=
          List.dropWhile_eq_nil_iff.mpr (by intro x hx; simp [hw x hx])
        rw [h3, h4]
      | cons r0 r' =>
        have hr0 : Txt.isWs r0 = true := by
          have := dropWhile_head_false (fun d => !Txt.isWs d) rest r0 r' hr
          simpa using this
        rw [collapseWS_cons_ws r0 r' hr0]
        have hpos : ∀ x ∈ rest.takeWhile (fun d => !Txt.isWs d),
            (!Txt.isWs x) = true := by
          intro x hx
          simp [hw x hx]
        have htw : List.takeWhile (fun d => !Txt.isWs d)
            (rest.takeWhile (fun d => !Txt.isWs d)
              ++ ' ' :: collapseWS (r'.dropWhile Txt.isWs))
            = rest.takeWhile (fun d => !Txt.isWs d) := by
          rw [List.takeWhile_append_of_pos hpos,
            @List.takeWhile_cons_of_neg Char (fun d => !Txt.isWs d) ' '
              (collapseWS (r'.dropWhile Txt.isWs)) (by decide), List.append_nil]
        have hdw : List.dropWhile (fun d => !Txt.isWs d)
            (rest.takeWhile (fun d => !Txt.isWs d)
              ++ ' ' :: collapseWS (r'.dropWhile Txt.isWs))
            = ' ' :: collapseWS (r'.dropWhile Txt.isWs) := by
          rw [List.dropWhile_append_of_pos hpos,
            @List.dropWhile_cons_of_neg Char (fun d => !Txt.isWs d) ' '
              (collapseWS (r'.dropWhile Txt.isWs)) (by decide)]
        rw [htw, hdw, wordsL_cons_ws ' ' _ (by decide),
          wordsL_collapseWS (r'.dropWhile Txt.isWs),
          wordsL_dropWhile_ws r', wordsL_cons_ws r0 r' hr0]
termination_by s.length
decreasing_by
  · have h1 : (r'.dropWhile Txt.isWs).length ≤ r'.length :=
      (List.dropWhile_sublist Txt.isWs).length_le
    have h2 : (rest.dropWhile (fun d => !Txt.isWs d)).length ≤ rest.length :=
      (List.dropWhile_sublist (fun d => !Txt.isWs d)).length_le
    rw [hr] at h2
    simp only [List.length_cons] at h2 ⊢
    omega
  · exact Nat.lt_succ_of_le ((List.dropWhile_sublist Txt.isWs).length_le)

theorem rdropWhile_append_rtakeWhile {α : Type} (p : α → Bool) (l : List α) :
    l.rdropWhile p ++ l.rtakeWhile p = l := by
  rw [List.rdropWhile, List.rtakeWhile, ← List.reverse_append,
    List.takeWhile_append_dropWhile, List.reverse_reverse]

theorem wordsL_stripWS (s : List Char) : wordsL (stripWS s) = wordsL s := by
  have h1 : wordsL ((s.dropWhile Txt.isWs).rdropWhile Txt.isWs
      ++ (s.dropWhile Txt.isWs).rtakeWhile Txt.isWs)
      = wordsL ((s.dropWhile Txt.isWs).rdropWhile Txt.isWs) :=
    wordsL_append_ws _ _ fun c hc => List.mem_rtakeWhile_imp hc
  rw [rdropWhile_append_rtakeWhile Txt.isWs (s.dropWhile Txt.isWs)] at h1
  rw [stripWS, ← h1, wordsL_dropWhile_ws s]

end Fmt

namespace Fmt

theorem wordsL_word_props (s : List Char) :
    ∀ w ∈ wordsL s, w ≠ [] ∧ ∀ c ∈ w, Txt.isWs c = false := by
  match s with
  | [] => rw [wordsL_nil]; intro w hw; simp at hw
  | c :: rest =>
    cases h : Txt.isWs c with
    | true =>
      rw [wordsL_cons_ws c rest h]
      exact wordsL_word_props rest
    | false =>
      rw [wordsL_cons_not_ws c rest h]
      intro w hw
      rcases List.mem_cons.mp hw with rfl | hw'
      · refine ⟨by simp, ?_⟩
        intro x hx
        rcases List.mem_cons.mp hx with rfl | hx'
        · exact h
        · have := List.mem_takeWhile_imp hx'
          simpa using this
      · exact wordsL_word_props (rest.dropWhile (fun d => !Txt.isWs d)) w hw'
termination_by s.length
decreasing_by
  all_goals simp only [List.length_cons]
  all_goals try omega
  all_goals
    exact Nat.lt_succ_of_le ((List.dropWhile_sublist (fun d => !Txt.isWs d)).length_le)

theorem wordsL_infix_mem (s : List Char) : ∀ w ∈ wordsL s, w <:+: s := by
  match s with
  | [] => rw [wordsL_nil]; intro w hw; simp at hw
  | c :: rest =>
    cases h : Txt.isWs c with
    | true =>
      rw [wordsL_cons_ws c rest h]
      intro w hw
      exact (wordsL_infix_mem rest w hw).trans (List.infix_cons (List.infix_refl rest))
    | false =>
      rw [wordsL_cons_not_ws c rest h]
      intro w hw
      rcases List.mem_cons.mp hw with rfl | hw'
      · have hpre : (c :: rest.takeWhile (fun d => !Txt.isWs d)) <+: c :: rest := by
          refine ⟨rest.dropWhile (fun d => !Txt.isWs d), ?_⟩
          rw [List.cons_append, List.takeWhile_append_dropWhile]
        exact hpre.isInfix
      · have h1 : w <:+: rest.dropWhile (fun d => !Txt.isWs d) :=
          wordsL_infix_mem (rest.dropWhile (fun d => !Txt.isWs d)) w hw'
        have h2 : rest.dropWhile (fun d => !Txt.isWs d) <:+ rest :=
          List.dropWhile_suffix _
        exact (h1.trans h2.isInfix).trans (List.infix_cons (List.infix_refl rest))
termination_by s.length
decreasing_by
  all_goals simp only [List.length_cons]
  all_goals try omega
  all_goals
    exact Nat.lt_succ_of_le ((List.dropWhile_sublist (fun d => !Txt.isWs d)).length_le)

/-- Inside a run of non-space characters the camel shape invariant forbids
every camel split point. -/
theorem camelOK3_dense (x : Char) (u : List Char) (hOK : camelOK3 (x :: u) = true)
    (hx : ¬ x = ' ') (hu : ∀ c ∈ u, ¬ c = ' ') : noUL u = true := by
  match u with
  | [] => simp [noUL]
  | [a] => simp [noUL]
  | a :: b :: t =>
    rw [camelOK3.eq_def] at hOK
    simp only [Bool.and_eq_true] at hOK
    have hcnd := hOK.1
    have hnab : (Txt.isUp a && Txt.isLo b) = false := by
      cases hp : (Txt.isUp a && Txt.isLo b) with
      | false => rfl
      | true =>
        rw [hp] at hcnd
        simp at hcnd
        exact absurd hcnd hx
    have hrec : noUL (b :: t) = true :=
      camelOK3_dense a (b :: t) hOK.2 (hu a (List.mem_cons_self a (b :: t)))
        fun c hc => hu c (List.mem_cons_of_mem _ hc)
    rw [noUL.eq_def]
    simp only [Bool.and_eq_true]
    exact ⟨by simp [hnab], hrec⟩
termination_by u.length

/-- Every word of a string satisfying the camel shape invariant has no
interior camel split point. -/
theorem wordsL_noUL_tail (s : List Char) (hOK : camelOK3 s = true) :
    ∀ w ∈ wordsL s, noUL w.tail = true := by
  match s with
  | [] => rw [wordsL_nil]; intro w hw; simp at hw
  | c :: rest =>
    cases h : Txt.isWs c with
    | true =>
      rw [wordsL_cons_ws c rest h]
      exact wordsL_noUL_tail rest (camelOK3_tail c rest hOK)
    | false =>
      rw [wordsL_cons_not_ws c rest h]
      intro w hw
      rcases List.mem_cons.mp hw with rfl | hw'
      · have hpre : (c :: rest.takeWhile (fun d => !Txt.isWs d)) <+: c :: rest := by
          refine ⟨rest.dropWhile (fun d => !Txt.isWs d), ?_⟩
          rw [List.cons_append, List.takeWhile_append_dropWhile]
        have hOK' : camelOK3 (c :: rest.takeWhile (fun d => !Txt.isWs d)) = true :=
          camelOK3_prefix _ _ hpre hOK
        have hnw : ∀ x ∈ rest.takeWhile (fun d => !Txt.isWs d), ¬ x = ' ' := by
          intro x hx
          have := List.mem_takeWhile_imp hx
          exact Txt.ne_space_of_not_ws x (by simpa using this)
        exact camelOK3_dense c _ hOK' (Txt.ne_space_of_not_ws c h) hnw
      · have hsuf : rest.dropWhile (fun d => !Txt.isWs d) <:+ c :: rest :=
          (List.dropWhile_suffix _).trans (List.suffix_cons c rest)
        exact wordsL_noUL_tail (rest.dropWhile (fun d => !Txt.isWs d))
          (camelOK3_suffix _ _ hsuf hOK) w hw'
termination_by s.length
decreasing_by
  all_goals simp only [List.length_cons]
  all_goals try omega
  all_goals
    exact Nat.lt_succ_of_le ((List.dropWhile_sublist (fun d => !Txt.isWs d)).length_le)

end Fmt

namespace Fmt

theorem joinWith_nil (sep : List Char) : Txt.joinWith sep [] = [] := by
  simp [Txt.joinWith, List.intercalate]

theorem joinWith_single (sep : List Char) (w : List Char) :
    Txt.joinWith sep [w] = w := by
  simp [Txt.joinWith, List.intercalate, List.intersperse]

theorem joinWith_cons2 (sep w x : List Char) (ws : List (List Char)) :
    Txt.joinWith sep (w :: x :: ws) = w ++ sep ++ Txt.joinWith sep (x :: ws) := by
  simp [Txt.joinWith, List.intercalate, List.intersperse]

/-- Rebuilding words from their single-space join. -/
theorem wordsL_join (ws : List (List Char))
    (hws : ∀ w ∈ ws, w ≠ [] ∧ ∀ c ∈ w, Txt.isWs c = false) :
    wordsL (Txt.joinWith [' '] ws) = ws := by
  match ws with
  | [] => rw [joinWith_nil, wordsL_nil]
  | [w] =>
    rw [joinWith_single]
    obtain ⟨hne, hch⟩ := hws w (List.mem_cons_self w [])
    obtain ⟨c, rest, rfl⟩ := List.exists_cons_of_ne_nil hne
    rw [wordsL_cons_not_ws c rest (hch c (List.mem_cons_self c rest))]
    have hall : ∀ d ∈ rest, (!Txt.isWs d) = true := by
      intro d hd
      simp [hch d (List.mem_cons_of_mem _ hd)]
    rw [List.takeWhile_eq_self_iff.mpr hall, List.dropWhile_eq_nil_iff.mpr hall,
      wordsL_nil]
  | w :: x :: ws' =>
    rw [joinWith_cons2]
    obtain ⟨hne, hch⟩ := hws w (List.mem_cons_self w (x :: ws'))
    obtain ⟨c, rest, rfl⟩ := List.exists_cons_of_ne_nil hne
    have h1 : ((c :: rest) ++ [' ']) ++ Txt.joinWith [' '] (x :: ws')
        = c :: (rest ++ ' ' :: Txt.joinWith [' '] (x :: ws')) := by
      simp
    rw [h1, wordsL_cons_not_ws c _ (hch c (List.mem_cons_self c rest))]
    have hall : ∀ d ∈ rest, (!Txt.isWs d) = true := by
      intro d hd
      simp [hch d (List.mem_cons_of_mem _ hd)]
    have htw : (rest ++ ' ' :: Txt.joinWith [' '] (x :: ws')).takeWhile
        (fun d => !Txt.isWs d) = rest := by
      rw [List.takeWhile_append_of_pos hall,
        @List.takeWhile_cons_of_neg Char (fun d => !Txt.isWs d) ' '
          (Txt.joinWith [' '] (x :: ws')) (by decide), List.append_nil]
    have hdw : (rest ++ ' ' :: Txt.joinWith [' '] (x :: ws')).dropWhile
        (fun d => !Txt.isWs d) = ' ' :: Txt.joinWith [' '] (x :: ws') := by
      rw [List.dropWhile_append_of_pos hall,
        @List.dropWhile_cons_of_neg Char (fun d => !Txt.isWs d) ' '
          (Txt.joinWith [' '] (x :: ws')) (by decide)]
    rw [htw, hdw, wordsL_cons_ws ' ' _ (by decide)]
    rw [wordsL_join (x :: ws') fun v hv => hws v (List.mem_cons_of_mem _ hv)]

end Fmt

namespace Fmt

theorem mem_camelSub (s : List Char) : ∀ c ∈ camelSub s, c ∈ s ∨ c = ' ' := by
  match s with
  | [] => rw [camelSub_nil]; intro c hc; simp at hc
  | x :: rest =>
    intro c hc
    rcases hshape : rest with _ | ⟨d, r'⟩
    · rw [hshape] at hc
      rw [camelSub_single] at hc
      exact Or.inl (by simpa using hc)
    · subst hshape
      by_cases h : Txt.isUp x = true ∧ Txt.isLo d = true
      · rw [camelSub_match x d r' h.1 h.2] at hc
        rcases List.mem_cons.mp hc with rfl | hc1
        · exact Or.inr rfl
        rcases List.mem_cons.mp hc1 with rfl | hc2
        · exact Or.inl (List.mem_cons_self _ _)
        rcases List.mem_append.mp hc2 with hc3 | hc3
        · exact Or.inl (List.mem_cons_of_mem _
            ((List.takeWhile_sublist Txt.isLo).subset hc3))
        · rcases mem_camelSub ((d :: r').dropWhile Txt.isLo) c hc3 with hc4 | hc4
          · exact Or.inl (List.mem_cons_of_mem _
              ((List.dropWhile_sublist Txt.isLo).subset hc4))
          · exact Or.inr hc4
      · have heq : camelSub (x :: d :: r') = x :: camelSub (d :: r') := by
          rcases Bool.eq_false_or_eq_true (Txt.isUp x) with hu | hu
          · have he : Txt.isLo d = false := by
              rcases Bool.eq_false_or_eq_true (Txt.isLo d) with he | he
              · exact absurd ⟨hu, he⟩ h
              · exact he
            exact camelSub_cons_of_not_lo x d r' he
          · exact camelSub_cons_of_not_up x (d :: r') hu
        rw [heq] at hc
        rcases List.mem_cons.mp hc with rfl | hc1
        · exact Or.inl (List.mem_cons_self _ _)
        · rcases mem_camelSub (d :: r') c hc1 with hc2 | hc2
          · exact Or.inl (List.mem_cons_of_mem _ hc2)
          · exact Or.inr hc2
termination_by s.length
decreasing_by
  · exact Nat.lt_succ_of_le ((List.dropWhile_sublist Txt.isLo).length_le)
  · simp

theorem mem_digitSub (s : List Char) : ∀ c ∈ digitSub s, c ∈ s ∨ c = ' ' := by
  match s with
  | [] => rw [digitSub_nil]; intro c hc; simp at hc
  | [x] => rw [digitSub_single]; intro c hc; exact Or.inl (by simpa using hc)
  | a :: b :: r =>
    intro c hc
    cases hp : (Txt.isLet a && Txt.isDig b) with
    | true =>
      rw [digitSub_match a b r hp] at hc
      rcases List.mem_cons.mp hc with rfl | hc1
      · exact Or.inl (List.mem_cons_self _ _)
      rcases List.mem_cons.mp hc1 with rfl | hc2
      · exact Or.inr rfl
      rcases List.mem_cons.mp hc2 with rfl | hc3
      · exact Or.inl (List.mem_cons_of_mem _ (List.mem_cons_self _ _))
      · rcases mem_digitSub r c hc3 with hc4 | hc4
        · exact Or.inl (List.mem_cons_of_mem _ (List.mem_cons_of_mem _ hc4))
        · exact Or.inr hc4
    | false =>
      rw [digitSub_nomatch a b r hp] at hc
      rcases List.mem_cons.mp hc with rfl | hc1
      · exact Or.inl (List.mem_cons_self _ _)
      · rcases mem_digitSub (b :: r) c hc1 with hc2 | hc2
        · exact Or.inl (List.mem_cons_of_mem _ hc2)
        · exact Or.inr hc2
termination_by s.length

theorem replaceCh_id (old nw : Char) (s : List Char) (h : ∀ c ∈ s, ¬ c = old) :
    replaceCh old nw s = s := by
  unfold replaceCh
  induction s with
  | nil => rfl
  | cons c rest ih =>
    simp only [List.map_cons]
    rw [if_neg (h c (List.mem_cons_self c rest)),
      ih fun c hc => h c (List.mem_cons_of_mem _ hc)]

theorem mem_replaceCh (old nw : Char) (s : List Char) :
    ∀ c ∈ replaceCh old nw s, (c ∈ s ∧ ¬ c = old) ∨ c = nw := by
  intro c hc
  unfold replaceCh at hc
  obtain ⟨x, hx, hfx⟩ := List.mem_map.mp hc
  by_cases hxo : x = old
  · right
    rw [← hfx, if_pos hxo]
  · left
    rw [← hfx, if_neg hxo]
    exact ⟨hx, hxo⟩

theorem mem_joinWith (ws : List (List Char)) :
    ∀ c ∈ Txt.joinWith [' '] ws, (∃ w ∈ ws, c ∈ w) ∨ c = ' ' := by
  match ws with
  | [] => rw [joinWith_nil]; intro c hc; simp at hc
  | [w] =>
    rw [joinWith_single]
    intro c hc
    exact Or.inl ⟨w, List.mem_cons_self w [], hc⟩
  | w :: x :: ws' =>
    rw [joinWith_cons2]
    intro c hc
    rcases List.mem_append.mp hc with hc1 | hc1
    · rcases List.mem_append.mp hc1 with hc2 | hc2
      · exact Or.inl ⟨w, List.mem_cons_self _ _, hc2⟩
      · exact Or.inr (by simpa using hc2)
    · rcases mem_joinWith (x :: ws') c hc1 with ⟨v, hv, hcv⟩ | hc2
      · exact Or.inl ⟨v, List.mem_cons_of_mem _ hv, hcv⟩
      · exact Or.inr hc2

/-- Words followed by a space and anything are split off whole. -/
theorem wordsL_append_word (w X : List Char) (hne : w ≠ [])
    (hch : ∀ c ∈ w, Txt.isWs c = false) :
    wordsL (w ++ ' ' :: X) = w :: wordsL X := by
  obtain ⟨c, rest, rfl⟩ := List.exists_cons_of_ne_nil hne
  rw [List.cons_append, wordsL_cons_not_ws c _ (hch c (List.mem_cons_self c rest))]
  have hall : ∀ d ∈ rest, (!Txt.isWs d) = true := by
    intro d hd
    simp [hch d (List.mem_cons_of_mem _ hd)]
  have htw : (rest ++ ' ' :: X).takeWhile (fun d => !Txt.isWs d) = rest := by
    rw [List.takeWhile_append_of_pos hall,
      @List.takeWhile_cons_of_neg Char (fun d => !Txt.isWs d) ' ' X (by decide),
      List.append_nil]
  have hdw : (rest ++ ' ' :: X).dropWhile (fun d => !Txt.isWs d) = ' ' :: X := by
    rw [List.dropWhile_append_of_pos hall,
      @List.dropWhile_cons_of_neg Char (fun d => !Txt.isWs d) ' ' X (by decide)]
  rw [htw, hdw, wordsL_cons_ws ' ' X (by decide)]

/-- Words that are camel-stable (up to one leading space) and digit-stable are
recovered exactly by the second pass's scanning stages. -/
theorem wordsL_pipeline_join (ws : List (List Char))
    (hprops : ∀ w ∈ ws, w ≠ [] ∧ ∀ c ∈ w, Txt.isWs c = false)
    (hcam : ∀ w ∈ ws, camelSub w = w ∨ camelSub w = ' ' :: w)
    (hdig : ∀ w ∈ ws, digitSub w = w) :
    wordsL (digitSub (camelSub (Txt.joinWith [' '] ws))) = ws := by
  match ws with
  | [] => rw [joinWith_nil, camelSub_nil, digitSub_nil, wordsL_nil]
  | [w] =>
    have hmem := List.mem_cons_self w ([] : List (List Char))
    have hw1 : wordsL w = [w] := by
      have := wordsL_join [w] (by
        intro v hv
        rcases List.mem_cons.mp hv with rfl | hv'
        · exact hprops v hmem
        · simp at hv')
      rwa [joinWith_single] at this
    rw [joinWith_single]
    rcases hcam w hmem with hc | hc
    · rw [hc, hdig w hmem, hw1]
    · rw [hc, digitSub_space_cons, hdig w hmem, wordsL_cons_ws ' ' w (by decide), hw1]
  | w :: x :: ws' =>
    have hmem := List.mem_cons_self w (x :: ws')
    have hJ : Txt.joinWith [' '] (w :: x :: ws')
        = w ++ ' ' :: Txt.joinWith [' '] (x :: ws') := by
      rw [joinWith_cons2]
      simp
    rw [hJ, camel_append_space w (Txt.joinWith [' '] (x :: ws')),
      digit_append_space (camelSub w) (camelSub (Txt.joinWith [' '] (x :: ws')))]
    have hrec : wordsL (digitSub (camelSub (Txt.joinWith [' '] (x :: ws')))) = x :: ws' :=
      wordsL_pipeline_join (x :: ws')
        (fun v hv => hprops v (List.mem_cons_of_mem _ hv))
        (fun v hv => hcam v (List.mem_cons_of_mem _ hv))
        (fun v hv => hdig v (List.mem_cons_of_mem _ hv))
    obtain ⟨hne, hch⟩ := hprops w hmem
    rcases hcam w hmem with hc | hc
    · rw [hc, hdig w hmem, wordsL_append_word w _ hne hch, hrec]
    · rw [hc, digitSub_space_cons, hdig w hmem]
      have h1 : (' ' :: w) ++ ' ' :: digitSub (camelSub (Txt.joinWith [' '] (x :: ws')))
          = ' ' :: (w ++ ' ' :: digitSub (camelSub (Txt.joinWith [' '] (x :: ws')))) := rfl
      rw [h1, wordsL_cons_ws ' ' _ (by decide), wordsL_append_word w _ hne hch, hrec]

end Fmt

namespace Fmt

/-- After title-casing, a word whose tail has no camel split point is either
fixed by `camelSub` or merely gains one leading space. -/
theorem camelSub_titleW (w : List Char) (htail : noUL w.tail = true) :
    camelSub (titleW w) = titleW w ∨ camelSub (titleW w) = ' ' :: titleW w := by
  match w with
  | [] => left; simp only [titleW]; exact camelSub_nil
  | [c] => left; simp only [titleW]; exact camelSub_single _
  | c :: d :: r =>
    have htl : noUL (d :: r) = true := by simpa using htail
    simp only [titleW]
    by_cases h : Txt.isUp (Txt.upChar c) = true ∧ Txt.isLo d = true
    · right
      rw [camelSub_match (Txt.upChar c) d r h.1 h.2]
      have hres : noUL ((d :: r).dropWhile Txt.isLo) = true :=
        noUL_suffix _ _ (List.dropWhile_suffix _) htl
      rw [camelSub_eq_self_of_noUL _ hres, List.takeWhile_append_dropWhile]
    · left
      have heq : camelSub (Txt.upChar c :: d :: r)
          = Txt.upChar c :: camelSub (d :: r) := by
        rcases Bool.eq_false_or_eq_true (Txt.isUp (Txt.upChar c)) with hu | hu
        · have hd : Txt.isLo d = false := by
            rcases Bool.eq_false_or_eq_true (Txt.isLo d) with hd | hd
            · exact absurd ⟨hu, hd⟩ h
            · exact hd
          exact camelSub_cons_of_not_lo _ d r hd
        · exact camelSub_cons_of_not_up _ (d :: r) hu
      rw [heq, camelSub_eq_self_of_noUL (d :: r) htl]

theorem titleW_titleW (w : List Char) : titleW (titleW w) = titleW w := by
  cases w with
  | nil => rfl
  | cons c rest => simp [titleW, Txt.upChar_upChar]

theorem noLD_titleW (w : List Char) (h : noLD w = true) : noLD (titleW w) = true := by
  match w with
  | [] => simp [titleW, noLD]
  | [c] => simp [titleW, noLD]
  | c :: d :: r =>
    rw [noLD.eq_def] at h
    simp only [Bool.and_eq_true] at h
    simp only [titleW]
    rw [noLD.eq_def]
    simp only [Bool.and_eq_true]
    refine ⟨?_, h.2⟩
    rw [Txt.isLet_upChar]
    exact h.1

theorem titleW_ne_nil (w : List Char) (h : w ≠ []) : titleW w ≠ [] := by
  cases w with
  | nil => exact absurd rfl h
  | cons c rest => simp [titleW]

theorem titleW_not_ws (w : List Char) (h : ∀ c ∈ w, Txt.isWs c = false) :
    ∀ c ∈ titleW w, Txt.isWs c = false := by
  cases w with
  | nil => intro c hc; simp [titleW] at hc
  | cons a rest =>
    intro c hc
    simp only [titleW] at hc
    rcases List.mem_cons.mp hc with rfl | hc'
    · rw [Txt.isWs_upChar]
      exact h a (List.mem_cons_self a rest)
    · exact h c (List.mem_cons_of_mem _ hc')

theorem titleW_tail (w : List Char) : (titleW w).tail = w.tail := by
  cases w <;> rfl

theorem titleW_mem_ne (w : List Char) (t : Char)
    (hup : ∀ c, Txt.upChar c = t → c = t)
    (h : ∀ c ∈ w, ¬ c = t) : ∀ c ∈ titleW w, ¬ c = t := by
  cases w with
  | nil => intro c hc; simp [titleW] at hc
  | cons a rest =>
    intro c hc
    simp only [titleW] at hc
    rcases List.mem_cons.mp hc with rfl | hc'
    · intro he
      exact h a (List.mem_cons_self a rest) (hup a he)
    · exact h c (List.mem_cons_of_mem _ hc')

end Fmt

namespace Fmt

/-- Unfolding of the formatter with no brand-strip token. -/
theorem format_eq (s : List Char) : format_paper_type s none =
    (if (stripWS (collapseWS (digitSub (camelSub (replaceCh '+' ' '
        (replaceCh '_' ' ' s)))))).isEmpty then
      stripWS (collapseWS (digitSub (camelSub (replaceCh '+' ' '
        (replaceCh '_' ' ' s)))))
    else Txt.joinWith [' ']
      ((wordsL (stripWS (collapseWS (digitSub (camelSub (replaceCh '+' ' '
        (replaceCh '_' ' ' s))))))).map titleW)) := rfl

theorem format_nil : format_paper_type [] none = [] := by
  rw [format_eq]
  have h1 : replaceCh '+' ' ' (replaceCh '_' ' ' ([] : List Char)) = [] := rfl
  have h2 : stripWS [] = [] := by
    rw [stripWS]
    simp [List.rdropWhile]
  rw [h1, camelSub_nil, digitSub_nil, collapseWS_nil, h2]
  rw [if_pos List.isEmpty_nil]

/-- The second pass leaves a title-cased join of clean words unchanged. -/
theorem second_pass_fixed (ws0 : List (List Char))
    (hprops : ∀ w ∈ ws0, w ≠ [] ∧ ∀ x ∈ w, Txt.isWs x = false)
    (hnoLD : ∀ w ∈ ws0, noLD w = true)
    (hnoUL : ∀ w ∈ ws0, noUL w.tail = true)
    (hmem : ∀ w ∈ ws0, ∀ x ∈ w, ¬ x = '_' ∧ ¬ x = '+') :
    format_paper_type (Txt.joinWith [' '] (ws0.map titleW)) none
      = Txt.joinWith [' '] (ws0.map titleW) := by
  have hws : ∀ w' ∈ ws0.map titleW, w' ≠ [] ∧ ∀ x ∈ w', Txt.isWs x = false := by
    intro w' hw'
    obtain ⟨w, hw, rfl⟩ := List.mem_map.mp hw'
    exact ⟨titleW_ne_nil w (hprops w hw).1, titleW_not_ws w (hprops w hw).2⟩
  have hcam : ∀ w' ∈ ws0.map titleW,
      camelSub w' = w' ∨ camelSub w' = ' ' :: w' := by
    intro w' hw'
    obtain ⟨w, hw, rfl⟩ := List.mem_map.mp hw'
    exact camelSub_titleW w (hnoUL w hw)
  have hdig : ∀ w' ∈ ws0.map titleW, digitSub w' = w' := by
    intro w' hw'
    obtain ⟨w, hw, rfl⟩ := List.mem_map.mp hw'
    exact digitSub_eq_self_of_noLD _ (noLD_titleW w (hnoLD w hw))
  have hmem' : ∀ x ∈ Txt.joinWith [' '] (ws0.map titleW),
      ¬ x = '_' ∧ ¬ x = '+' := by
    intro x hx
    rcases mem_joinWith _ x hx with ⟨w', hw', hxw⟩ | rfl
    · obtain ⟨w, hw, rfl⟩ := List.mem_map.mp hw'
      exact ⟨titleW_mem_ne w '_' Txt.upChar_eq_underscore
          (fun cc hc => (hmem w hw cc hc).1) x hxw,
        titleW_mem_ne w '+' Txt.upChar_eq_plus
          (fun cc hc => (hmem w hw cc hc).2) x hxw⟩
    · exact ⟨by decide, by decide⟩
  have hA : replaceCh '_' ' ' (Txt.joinWith [' '] (ws0.map titleW))
      = Txt.joinWith [' '] (ws0.map titleW) :=
    replaceCh_id _ _ _ fun x hx => (hmem' x hx).1
  have hB : replaceCh '+' ' ' (Txt.joinWith [' '] (ws0.map titleW))
      = Txt.joinWith [' '] (ws0.map titleW) :=
    replaceCh_id _ _ _ fun x hx => (hmem' x hx).2
  have hwords : wordsL (stripWS (collapseWS (digitSub (camelSub
      (Txt.joinWith [' '] (ws0.map titleW)))))) = ws0.map titleW := by
    rw [wordsL_stripWS, wordsL_collapseWS]
    exact wordsL_pipeline_join (ws0.map titleW) hws hcam hdig
  rw [format_eq, hA, hB]
  cases hEmp : stripWS (collapseWS (digitSub (camelSub
      (Txt.joinWith [' '] (ws0.map titleW))))) with
  | nil =>
    rw [hEmp, wordsL_nil] at hwords
    have h0 : ws0 = [] := by
      cases ws0 with
      | nil => rfl
      | cons a b => simp at hwords
    subst h0
    rw [if_pos List.isEmpty_nil, List.map_nil, joinWith_nil]
  | cons a b =>
    rw [hEmp] at hwords
    rw [if_neg (by simp : ¬ (a :: b).isEmpty = true), hwords, List.map_map]
    have hmm : ws0.map (titleW ∘ titleW) = ws0.map titleW :=
      List.map_congr_left fun w _ => titleW_titleW w
    rw [hmm]

end Fmt

/-- **C5.** Idempotence of the material formatter, as it actually holds: with
no `remove_brand` strip token, applying `_format_paper_type` to its own output
returns that output unchanged for every input string. (The claim's "including
when the same optional remove_brand strip token is supplied to both
applications" fails; see the counterexample.) -/
theorem format_paper_type_idem (s : List Char) :
    Fmt.format_paper_type (Fmt.format_paper_type s none) none
      = Fmt.format_paper_type s none := by
  rw [Fmt.format_eq s]
  cases hsplit : Fmt.stripWS (Fmt.collapseWS (Fmt.digitSub (Fmt.camelSub
      (Fmt.replaceCh '+' ' ' (Fmt.replaceCh '_' ' ' s))))) with
  | nil =>
    rw [if_pos List.isEmpty_nil]
    exact Fmt.format_nil
  | cons c cr =>
    rw [if_neg (by simp : ¬ (c :: cr).isEmpty = true)]
    have hws0 : Fmt.wordsL (c :: cr)
        = Fmt.wordsL (Fmt.digitSub (Fmt.camelSub
            (Fmt.replaceCh '+' ' ' (Fmt.replaceCh '_' ' ' s)))) := by
      rw [← hsplit, Fmt.wordsL_stripWS, Fmt.wordsL_collapseWS]
    have hOK3 : Fmt.camelOK3 (Fmt.digitSub (Fmt.camelSub
        (Fmt.replaceCh '+' ' ' (Fmt.replaceCh '_' ' ' s)))) = true := by
      have h1 := Fmt.camelOK3_cons_camelSub
        (Fmt.replaceCh '+' ' ' (Fmt.replaceCh '_' ' ' s)) ' '
      have h2 := Fmt.camelOK3_cons_digitSub _ ' ' h1
      exact Fmt.camelOK3_tail ' ' _ h2
    have hnoLD : ∀ w ∈ Fmt.wordsL (c :: cr), Fmt.noLD w = true := by
      intro w hw
      rw [hws0] at hw
      exact Fmt.noLD_infix w _ (Fmt.wordsL_infix_mem _ w hw) (Fmt.noLD_digitSub _)
    have hnoUL : ∀ w ∈ Fmt.wordsL (c :: cr), Fmt.noUL w.tail = true := by
      intro w hw
      rw [hws0] at hw
      exact Fmt.wordsL_noUL_tail _ hOK3 w hw
    have hc1 : ∀ x ∈ Fmt.replaceCh '+' ' ' (Fmt.replaceCh '_' ' ' s),
        ¬ x = '_' ∧ ¬ x = '+' := by
      intro x hx
      rcases Fmt.mem_replaceCh '+' ' ' _ x hx with ⟨hx1, hxp⟩ | rfl
      · rcases Fmt.mem_replaceCh '_' ' ' s x hx1 with ⟨h0, hxu⟩ | rfl
        · exact ⟨hxu, hxp⟩
        · exact ⟨by decide, hxp⟩
      · exact ⟨by decide, by decide⟩
    have hmem : ∀ w ∈ Fmt.wordsL (c :: cr), ∀ x ∈ w,
        ¬ x = '_' ∧ ¬ x = '+' := by
      intro w hw x hx
      rw [hws0] at hw
      have hxs3 : x ∈ Fmt.digitSub (Fmt.camelSub
          (Fmt.replaceCh '+' ' ' (Fmt.replaceCh '_' ' ' s))) :=
        (Fmt.wordsL_infix_mem _ w hw).subset hx
      rcases Fmt.mem_digitSub _ x hxs3 with hx1 | rfl
      · rcases Fmt.mem_camelSub _ x hx1 with hx2 | rfl
        · exact hc1 x hx2
        · exact ⟨by decide, by decide⟩
      · exact ⟨by decide, by decide⟩
    exact Fmt.second_pass_fixed (Fmt.wordsL (c :: cr))
      (Fmt.wordsL_word_props (c :: cr)) hnoLD hnoUL hmem

/-- **C5 counterexample.** With the same `remove_brand` token supplied to both
applications the formatter is not idempotent: formatting `"aabb"` with strip
token `"ab"` yields `"Ab"`, but formatting that output again with the same
token yields the empty string. -/
theorem format_not_idem_with_brand :
    Fmt.format_paper_type "aabb".data (some "ab".data) = "Ab".data ∧
    Fmt.format_paper_type
      (Fmt.format_paper_type "aabb".data (some "ab".data))
      (some "ab".data) = [] := by
  have h1 : Fmt.format_paper_type "aabb".data (some "ab".data) = "Ab".data := by
    simp [Fmt.format_paper_type, Fmt.removeTok, Fmt.replaceCh, Fmt.camelSub,
      Fmt.digitSub, Fmt.collapseWS, Fmt.stripWS, Fmt.wordsL, Fmt.titleW,
      Txt.joinWith, Txt.lowerL, Txt.lowChar, Txt.upChar, Txt.isWs, Txt.isUp,
      Txt.isLo, Txt.isLet, Txt.isDig, List.rdropWhile]
    decide
  refine ⟨h1, ?_⟩
  rw [h1]
  simp [Fmt.format_paper_type, Fmt.removeTok, Fmt.replaceCh, Fmt.camelSub,
    Fmt.digitSub, Fmt.collapseWS, Fmt.stripWS, Fmt.wordsL, Fmt.titleW,
    Txt.joinWith, Txt.lowerL, Txt.lowChar, Txt.upChar, Txt.isWs, Txt.isUp,
    Txt.isLo, Txt.isLet, Txt.isDig, List.rdropWhile]
